import Mathlib

/-!
# FIBA Ref Rules demo: a verification development of `src/App.jsx`

The logic of the quiz widget is embedded as pure Lean functions.

Conventions of the embedding.

* `localStorage` is a map from keys to optional strings (`null` is `none`).
* The values that the program keeps as JavaScript Numbers and sends through
  `String(...)` and `Number(...)`, the experience points and the streak, are
  binary64 values (`JSNumber`): `NaN`, the two infinities, and the finite
  values `± mant * 2 ^ exp` with an odd significand below `2 ^ 53`.  Addition
  rounds to nearest with ties to even, `jsNumber` follows the `StringToNumber`
  grammar of ECMAScript (white space, sign, `Infinity`, fraction, exponent,
  radix prefixes, the empty string) and `jsString` follows `Number::toString`
  (the shortest digits that read back as the value, in the four layouts).
* Counters and positions, which the program only increments from 0 by 1 and
  never stores, are natural numbers.
* In the accuracy percentage of `Summary` the quotient and the product are
  rounded to binary64 explicitly (see `fl`).
* A `Date` object is what it shows in local time: year, month and day.  The
  program makes two of them per session start, and both are inputs, so that
  nothing is assumed about the host's clock, time zone or calendar.
* A React event handler runs against the values of the render in which it was
  created; one user event is processed per render, so the values captured by
  `handleResult` are those of the current state.
* `undefined` is `none` in the queue (an out-of-range `q[idx]`).
-/

namespace FibaDemo

/-! ## Local storage helpers -/

/-- The browser key-value store: `getItem` returns `null` (`none`) or a string. -/
abbrev Store := String → Option String

/-- Models `localStorage.getItem(key)`. -/
def getItem (ls : Store) (key : String) : Option String := ls key

/-- Models `localStorage.setItem(key, value)`. -/
def setItem (ls : Store) (key value : String) : Store :=
  fun k => if k = key then some value else ls k

/-- The key `LS.XP`. -/
def LS.XP : String := "fiba_demo_xp"

/-- The key `LS.STREAK`. -/
def LS.STREAK : String := "fiba_demo_streak"

/-- The key `LS.LAST_DAY`. -/
def LS.LAST_DAY : String := "fiba_demo_last_day"

/-- JavaScript falsiness of a value that is `null` or a string: `!raw`. -/
def falsy (raw : Option String) : Bool :=
  match raw with
  | none => true
  | some s => s.data.isEmpty

/-! ## Rounding to binary64 -/

/-- The integer nearest to `n / d`, ties going to the even integer. -/
def divNearestEven (n d : Nat) : Nat :=
  let q := n / d
  let r := n % d
  if 2 * r < d then q
  else if d < 2 * r then q + 1
  else if q % 2 = 0 then q else q + 1

/-- Position of the leading bit of `n` by repeated halving, with fuel. -/
def log2Aux : Nat → Nat → Nat
  | 0, _ => 0
  | fuel + 1, n => if 2 ≤ n then log2Aux fuel (n / 2) + 1 else 0

/-- Position of the leading bit of `n`: the floor of its binary logarithm. -/
def log2 (n : Nat) : Nat := log2Aux n n

/-- The binade of `n / d` for positive `n` and `d`: the floor of its binary
logarithm. -/
def floorLog2 (n d : Nat) : Int :=
  let e : Int := (log2 n : Int) - (log2 d : Int)
  if d * 2 ^ log2 n ≤ n * 2 ^ log2 d then e else e - 1

/-! ## Numbers -/

/-- A JavaScript Number: `NaN`, an infinity, or a finite binary64 value
`± mant * 2 ^ exp` (negative zero is `finite true 0 0`). -/
inductive JSNumber where
  | nan
  | infinity (negative : Bool)
  | finite (negative : Bool) (mant : Nat) (exp : Int)
deriving DecidableEq, Repr

/-- Removes factors of two from a mantissa, with fuel. -/
def stripTwos : Nat → Nat → Int → Nat × Int
  | 0, m, e => (m, e)
  | fuel + 1, m, e => if m % 2 = 0 then stripTwos fuel (m / 2) (e + 1) else (m, e)

/-- The mantissa made odd (zero is `(0, 0)`), so that equal values are equal
pairs. -/
def normalize (m : Nat) (e : Int) : Nat × Int :=
  if m = 0 then (0, 0) else stripTwos m m e

/-- The integer nearest to `(n / d) / 2 ^ e`, ties to even. -/
def scaledRound (n d : Nat) (e : Int) : Nat :=
  if 0 ≤ e then divNearestEven n (d * 2 ^ e.toNat)
  else divNearestEven (n * 2 ^ (-e).toNat) d

/-- The binary64 value nearest to `n / d` (ties to even, subnormals
included), as a normalized pair; `none` when the result is infinite.  The
value is rounded at the exponent `e` of its last place; at `e ≥ 0` the rounded
significand lies between `2 ^ 52` and `2 ^ 53`, so the result reaches
`2 ^ 1024` exactly when `e > 971`, or `e = 971` with significand `2 ^ 53`. -/
def round64 (n d : Nat) : Option (Nat × Int) :=
  if n = 0 then some (0, 0)
  else
    let e := max (floorLog2 n d) (-1022) - 52
    if 971 < e ∨ (e = 971 ∧ scaledRound n d e = 2 ^ 53) then none
    else some (normalize (scaledRound n d e) e)

/-- The Number nearest to `± n / d`. -/
def toNumber (negative : Bool) (n d : Nat) : JSNumber :=
  match round64 n d with
  | none => JSNumber.infinity negative
  | some p => JSNumber.finite negative p.1 p.2

/-- The Number of a natural-number literal. -/
def JSNumber.ofNat (n : Nat) : JSNumber := toNumber false n 1

/-- Models `Number.isFinite(n)`. -/
def JSNumber.isFinite : JSNumber → Bool
  | JSNumber.finite _ _ _ => true
  | _ => false

/-- The exact value of a Number when it is a non-negative integer. -/
def JSNumber.toNat? : JSNumber → Option Nat
  | JSNumber.finite false m e =>
    if 0 ≤ e then some (m * 2 ^ e.toNat)
    else if m % 2 ^ (-e).toNat = 0 then some (m / 2 ^ (-e).toNat) else none
  | JSNumber.finite true m _ => if m = 0 then some 0 else none
  | _ => none

/-- Models `a + b` on Numbers. -/
def JSNumber.add : JSNumber → JSNumber → JSNumber
  | JSNumber.nan, _ => JSNumber.nan
  | _, JSNumber.nan => JSNumber.nan
  | JSNumber.infinity s, JSNumber.infinity t =>
    if s = t then JSNumber.infinity s else JSNumber.nan
  | JSNumber.infinity s, JSNumber.finite _ _ _ => JSNumber.infinity s
  | JSNumber.finite _ _ _, JSNumber.infinity t => JSNumber.infinity t
  | JSNumber.finite s m e, JSNumber.finite t k f =>
    let c := min e f
    let a : Int := (if s then -1 else 1) * ((m * 2 ^ (e - c).toNat : Nat) : Int)
    let b : Int := (if t then -1 else 1) * ((k * 2 ^ (f - c).toNat : Nat) : Int)
    if a + b = 0 then JSNumber.finite (s && t) 0 0
    else if 0 ≤ c then toNumber (decide (a + b < 0)) ((a + b).natAbs * 2 ^ c.toNat) 1
    else toNumber (decide (a + b < 0)) (a + b).natAbs (2 ^ (-c).toNat)

/-! ## `Number(raw)` -/

/-- A decimal digit, `0` to `9`. -/
def isDecimalDigit (c : Char) : Bool := decide (48 ≤ c.toNat ∧ c.toNat ≤ 57)

/-- The white space and line terminator code points that `Number` strips:
TAB, LF, VT, FF, CR, SP, NBSP, the other space separators, LS, PS and
ZWNBSP. -/
def isStrWhiteSpaceChar (c : Char) : Bool :=
  decide (c.toNat = 0x9 ∨ c.toNat = 0xA ∨ c.toNat = 0xB ∨ c.toNat = 0xC ∨ c.toNat = 0xD ∨
    c.toNat = 0x20 ∨ c.toNat = 0xA0 ∨ c.toNat = 0x1680 ∨
    (0x2000 ≤ c.toNat ∧ c.toNat ≤ 0x200A) ∨ c.toNat = 0x2028 ∨ c.toNat = 0x2029 ∨
    c.toNat = 0x202F ∨ c.toNat = 0x205F ∨ c.toNat = 0x3000 ∨ c.toNat = 0xFEFF)

/-- Strips leading and trailing white space. -/
def trimWhiteSpace (cs : List Char) : List Char :=
  ((cs.dropWhile isStrWhiteSpaceChar).reverse.dropWhile isStrWhiteSpaceChar).reverse

/-- The value of a run of decimal digits. -/
def digitsValue (cs : List Char) : Nat :=
  cs.foldl (fun n c => n * 10 + (c.toNat - 48)) 0

/-- The characters from the start up to the first one satisfying `p`, and
the characters after it when there is one. -/
def splitAtFirst (p : Char → Bool) : List Char → List Char × Option (List Char)
  | [] => ([], none)
  | c :: cs =>
    if p c then ([], some cs)
    else (c :: (splitAtFirst p cs).1, (splitAtFirst p cs).2)

/-- The value of a `SignedInteger`: digits with an optional sign. -/
def parseSignedInteger (cs : List Char) : Option Int :=
  match cs with
  | '+' :: ds =>
    if !ds.isEmpty && ds.all isDecimalDigit then some (digitsValue ds : Int) else none
  | '-' :: ds =>
    if !ds.isEmpty && ds.all isDecimalDigit then some (-(digitsValue ds : Int)) else none
  | ds =>
    if !ds.isEmpty && ds.all isDecimalDigit then some (digitsValue ds : Int) else none

/-- Parses a `StrUnsignedDecimalLiteral` other than `Infinity`: digits with
an optional fraction and an optional exponent part.  The result `(s, e)`
denotes the mathematical value `s * 10 ^ e`. -/
def parseUnsignedDecimal (cs : List Char) : Option (Nat × Int) :=
  let me := splitAtFirst (fun c => c = 'e' || c = 'E') cs
  let pf := splitAtFirst (fun c => c = '.') me.1
  let ip := pf.1
  let fd := pf.2.getD []
  if !(ip.all isDecimalDigit && fd.all isDecimalDigit) || (ip.isEmpty && fd.isEmpty) then none
  else
    match me.2 with
    | none => some (digitsValue (ip ++ fd), -(fd.length : Int))
    | some es =>
      match parseSignedInteger es with
      | none => none
      | some e => some (digitsValue (ip ++ fd), e - (fd.length : Int))

/-- The value of a digit in radix up to 16; 16 for any other character. -/
def radixDigit (c : Char) : Nat :=
  if 48 ≤ c.toNat ∧ c.toNat ≤ 57 then c.toNat - 48
  else if 97 ≤ c.toNat ∧ c.toNat ≤ 102 then c.toNat - 87
  else if 65 ≤ c.toNat ∧ c.toNat ≤ 70 then c.toNat - 55
  else 16

/-- The value of a non-empty run of digits of the given radix. -/
def radixValue (radix : Nat) (cs : List Char) : Option Nat :=
  if !cs.isEmpty && cs.all (fun c => decide (radixDigit c < radix)) then
    some (cs.foldl (fun n c => n * radix + radixDigit c) 0)
  else none

/-- Parses a `NonDecimalIntegerLiteral`: `0b`, `0o` or `0x` and digits. -/
def parseNonDecimal (cs : List Char) : Option Nat :=
  match cs with
  | '0' :: x :: ds =>
    if x = 'b' || x = 'B' then radixValue 2 ds
    else if x = 'o' || x = 'O' then radixValue 8 ds
    else if x = 'x' || x = 'X' then radixValue 16 ds
    else none
  | _ => none

/-- The Number nearest to `± s * 10 ^ e`. -/
def decimalToNumber (negative : Bool) (s : Nat) (e : Int) : JSNumber :=
  if 0 ≤ e then toNumber negative (s * 10 ^ e.toNat) 1
  else toNumber negative s (10 ^ (-e).toNat)

/-- Splits off the sign of a `StrDecimalLiteral`. -/
def splitSign (cs : List Char) : Bool × List Char :=
  match cs with
  | '+' :: r => (false, r)
  | '-' :: r => (true, r)
  | r => (false, r)

/-- Models `Number(raw)` for a string `raw` (the `StringToNumber` operation):
white space is stripped, the empty string is `+0`, a literal that does not
parse is `NaN`, and the exact value of a literal is rounded to the nearest
binary64 value, ties to even, as the engines do for any number of digits. -/
def jsNumber (raw : String) : JSNumber :=
  let cs := trimWhiteSpace raw.data
  if cs.isEmpty then JSNumber.finite false 0 0
  else
    match parseNonDecimal cs with
    | some v => toNumber false v 1
    | none =>
      if (splitSign cs).2 = ['I', 'n', 'f', 'i', 'n', 'i', 't', 'y'] then
        JSNumber.infinity (splitSign cs).1
      else
        match parseUnsignedDecimal (splitSign cs).2 with
        | none => JSNumber.nan
        | some p => decimalToNumber (splitSign cs).1 p.1 p.2

/-! ## `String(x)` -/

/-- Counts up the decimal exponent while `b ≤ a`. -/
def decimalExponentUp : Nat → Nat → Nat → Int → Int
  | 0, _, _, n => n
  | fuel + 1, a, b, n => if b ≤ a then decimalExponentUp fuel a (b * 10) (n + 1) else n

/-- Counts down the decimal exponent while `a * 10 < b`. -/
def decimalExponentDown : Nat → Nat → Nat → Int → Int
  | 0, _, _, n => n
  | fuel + 1, a, b, n =>
    if a * 10 < b then decimalExponentDown fuel (a * 10) b (n - 1) else n

/-- The integer `n` with `10 ^ (n - 1) ≤ a / b < 10 ^ n`, for positive `a`
and `b`. -/
def decimalExponent (a b : Nat) : Int :=
  if b ≤ a then decimalExponentUp (log2 a + 1) a b 0
  else decimalExponentDown (log2 b + 1) a b 0

/-- A decimal `digits * 10 ^ exp10`. -/
structure Decimal where
  digits : Nat
  exp10 : Int
deriving DecidableEq, Repr

/-- The Number nearest to a decimal. -/
def Decimal.toNumber (c : Decimal) : JSNumber := decimalToNumber false c.digits c.exp10

/-- The decimals with `k` digits next to `a / b`, whose decimal exponent is
`n`; the nearer one first, and the even one first when both are as near. -/
def candidates (a b : Nat) (n : Int) (k : Nat) : List Decimal :=
  let sh : Int := n - k
  let num := if sh < 0 then a * 10 ^ (-sh).toNat else a
  let den := if sh < 0 then b else b * 10 ^ sh.toNat
  let lo := num / den
  let r := num % den
  let carry := fun (s : Nat) =>
    if s = 10 ^ k then Decimal.mk (10 ^ (k - 1)) (sh + 1) else Decimal.mk s sh
  if 2 * r < den then [carry lo, carry (lo + 1)]
  else if den < 2 * r then [carry (lo + 1), carry lo]
  else if lo % 2 = 0 then [carry lo, carry (lo + 1)] else [carry (lo + 1), carry lo]

/-- The exact decimal expansion of `m * 2 ^ e`. -/
def exactDecimal (m : Nat) (e : Int) : Decimal :=
  if 0 ≤ e then { digits := m * 2 ^ e.toNat, exp10 := 0 }
  else { digits := m * 5 ^ (-e).toNat, exp10 := e }

/-- The decimal with the fewest digits that rounds to `m * 2 ^ e`; among
those with as few digits, the nearest.  Seventeen digits always suffice; the
exact expansion closes the search. -/
def shortestDecimal (m : Nat) (e : Int) : Decimal :=
  let a := if 0 ≤ e then m * 2 ^ e.toNat else m
  let b := if 0 ≤ e then 1 else 2 ^ (-e).toNat
  let n := decimalExponent a b
  let cands := (List.range 17).flatMap (fun k => candidates a b n (k + 1))
  match cands.find?
      (fun c => decide (c.digits ≠ 0 ∧ c.toNumber = JSNumber.finite false m e)) with
  | some c => c
  | none => exactDecimal m e

/-- The text of the decimal with digit characters `ds` whose value is
`0.ds * 10 ^ n`, laid out as `Number::toString` does: plain digits, a decimal
point inside or after leading zeros, or exponent notation. -/
def formatDecimal (ds : List Char) (n : Int) : List Char :=
  if (ds.length : Int) ≤ n ∧ n ≤ 21 then ds ++ List.replicate (n - ds.length).toNat '0'
  else if 0 < n ∧ n ≤ 21 then ds.take n.toNat ++ '.' :: ds.drop n.toNat
  else if -6 < n ∧ n ≤ 0 then '0' :: '.' :: (List.replicate (-n).toNat '0' ++ ds)
  else
    match ds with
    | [] => []
    | [d] => d :: 'e' :: (if n - 1 < 0 then '-' else '+') :: Nat.toDigits 10 (n - 1).natAbs
    | d :: rest =>
      d :: '.' :: (rest ++ 'e' :: (if n - 1 < 0 then '-' else '+')
        :: Nat.toDigits 10 (n - 1).natAbs)

/-- The text of the positive value `m * 2 ^ e`.  For an integer below
`2 ^ 53` the shortest digits are its decimal digits. -/
def magnitudeToString (m : Nat) (e : Int) : List Char :=
  if 0 ≤ e ∧ m * 2 ^ e.toNat < 2 ^ 53 then Nat.toDigits 10 (m * 2 ^ e.toNat)
  else
    formatDecimal (Nat.toDigits 10 (shortestDecimal m e).digits)
      ((shortestDecimal m e).exp10 + (Nat.toDigits 10 (shortestDecimal m e).digits).length)

/-- Models `String(x)` for a Number `x` (`Number::toString` in radix 10). -/
def jsString : JSNumber → String
  | JSNumber.nan => "NaN"
  | JSNumber.infinity false => "Infinity"
  | JSNumber.infinity true => "-Infinity"
  | JSNumber.finite s m e =>
    if m = 0 then "0"
    else String.mk ((if s then ['-'] else []) ++ magnitudeToString m e)

/-! ## Reading a stored number -/

/-- Models `String(n)` for a small non-negative integer `n`, as used for the
month and day numbers of a `Date`: its decimal digits. -/
def numToString (n : Nat) : String := toString n

/-- Models `readNum(key, def)`: a missing or empty entry gives `def`;
otherwise the entry is converted with `Number` and returned when
`Number.isFinite` holds, `def` being returned for `NaN` and the infinities. -/
def readNum (ls : Store) (key : String) (dflt : JSNumber) : JSNumber :=
  let raw := getItem ls key
  if falsy raw then dflt
  else
    let n := jsNumber (raw.getD "")
    if n.isFinite then n else dflt

/-! ## Calendar days -/

/-- The fields of a `Date` object that the program reads, in local time:
`getFullYear()`, `getMonth()` (0 to 11) and `getDate()` (1 to 31). -/
structure JSDate where
  fullYear : Int
  month : Nat
  date : Nat
deriving DecidableEq, Repr

/-- Gregorian leap years, as used by `Date`. -/
def isLeapYear (y : Int) : Bool :=
  (y % 4 = 0 ∧ y % 100 ≠ 0) ∨ y % 400 = 0

/-- Number of days of month `m` (0 to 11) of year `y`. -/
def daysInMonth (y : Int) (m : Nat) : Nat :=
  if m = 1 then (if isLeapYear y then 29 else 28)
  else if m = 3 ∨ m = 5 ∨ m = 8 ∨ m = 10 then 30
  else 31

/-- A `JSDate` that a `Date` object can show. -/
def JSDate.Valid (d : JSDate) : Prop :=
  d.month < 12 ∧ 1 ≤ d.date ∧ d.date ≤ daysInMonth d.fullYear d.month

instance (d : JSDate) : Decidable d.Valid := by
  unfold JSDate.Valid; infer_instance

/-- Models `s.padStart(2, "0")`. -/
def padStart2 (s : String) : String :=
  String.mk (List.replicate (2 - s.data.length) '0' ++ s.data)

/-- Models the template string of `todayStr()` (and of `yStr`) for the given
`Date` fields: year, two-digit month, two-digit day. -/
def dayStr (d : JSDate) : String :=
  toString d.fullYear ++ "-" ++ padStart2 (numToString (d.month + 1)) ++ "-"
    ++ padStart2 (numToString d.date)

/-- Models `todayStr()`, with `new Date()` passed in as `now`. -/
def todayStr (now : JSDate) : String := dayStr now

/-- Models `updateStreakOnSessionStart()`.  The two `Date` objects of a call
are inputs: `now` is what `new Date()` shows inside `todayStr()`, and `y` is
what the second `new Date()` shows after `y.setDate(y.getDate() - 1)`, a day
that the host computes in local time.  Returns the store after the call and
the returned streak. -/
def updateStreakOnSessionStart (ls : Store) (now y : JSDate) : Store × JSNumber :=
  let last := getItem ls LS.LAST_DAY
  let today := todayStr now
  if falsy last then
    (setItem (setItem ls LS.STREAK "1") LS.LAST_DAY today, JSNumber.ofNat 1)
  else if last = some today then (ls, readNum ls LS.STREAK (JSNumber.ofNat 1))
  else
    let yStr := dayStr y
    if last = some yStr then
      let next := (readNum ls LS.STREAK (JSNumber.ofNat 0)).add (JSNumber.ofNat 1)
      (setItem (setItem ls LS.STREAK (jsString next)) LS.LAST_DAY today, next)
    else
      (setItem (setItem ls LS.STREAK "1") LS.LAST_DAY today, JSNumber.ofNat 1)

/-! ## Question bank -/

/-- One entry of `mcq.choices`; `correct` is `Boolean(c.correct)`. -/
structure Choice where
  key : String
  text : String
  correct : Bool
deriving DecidableEq, Repr

/-- The fields of a bank entry that the logic reads. -/
structure Question where
  id : String
  rubric : List String
  choices : List Choice
  legal : Bool
deriving DecidableEq, Repr

/-- The seeded question bank of the source. -/
def bank : List Question :=
  [ { id := "art24-double-dribble"
      rubric := ["no", "unless", "another player", "touched", "in between"]
      choices :=
        [ { key := "a", text := "Legal play", correct := false },
          { key := "b", text := "Double dribble", correct := true },
          { key := "c", text := "Travelling", correct := false },
          { key := "d", text := "Play on", correct := false } ]
      legal := false } ]

/-! ## The session state machine of `App` -/

/-- The state of the `App` component together with `localStorage`. -/
structure App where
  mode : String
  queue : List (Option String)
  idx : Nat
  xp : JSNumber
  streak : JSNumber
  correctCount : Nat
  incorrectCount : Nat
  localStorage : Store

/-- The initial values of the `useState` calls of `App`, for a bank `b`. -/
def App.init (ls : Store) (b : List Question) : App :=
  { mode := "Multiple Choice"
    queue := b.map (fun q => some q.id)
    idx := 0
    xp := readNum ls LS.XP (JSNumber.ofNat 0)
    streak := JSNumber.ofNat 1
    correctCount := 0
    incorrectCount := 0
    localStorage := ls }

/-- The mount effect `setStreak(updateStreakOnSessionStart())`, with the two
`Date` objects of the call passed in. -/
def App.mountEffect (s : App) (now y : JSDate) : App :=
  let r := updateStreakOnSessionStart s.localStorage now y
  { s with streak := r.2, localStorage := r.1 }

/-- Models `setMode(m)`. -/
def App.setMode (s : App) (m : String) : App := { s with mode := m }

/-- Models `handleResult(ok)` where the handler was created by a render that
showed position `idxC` and queue `queueC`; the updater functions receive the
state `s`. -/
def handleResultFrom (idxC : Nat) (queueC : List (Option String)) (s : App)
    (ok : Bool) : App :=
  let next := s.xp.add (JSNumber.ofNat (if ok then 10 else 2))
  { s with
    xp := next
    localStorage := setItem s.localStorage LS.XP (jsString next)
    correctCount := if ok then s.correctCount + 1 else s.correctCount
    incorrectCount := if ok then s.incorrectCount else s.incorrectCount + 1
    queue :=
      let id := s.queue.getD idxC none
      if !ok then s.queue ++ [id] else s.queue
    idx := min (s.idx + 1) queueC.length }

/-- Models `handleResult(ok)` called from the current render. -/
def handleResult (s : App) (ok : Bool) : App :=
  handleResultFrom s.idx s.queue s ok

/-- Models `const finished = idx >= queue.length`. -/
def finished (s : App) : Bool := decide (s.idx ≥ s.queue.length)

/-- States reachable from the initial session of a bank `b` by calls of
`handleResult`, also counting the mount effect and mode changes. -/
inductive Reachable (b : List Question) : App → Prop
  | init (ls : Store) : Reachable b (App.init ls b)
  | effect (s : App) (now y : JSDate) : Reachable b s → Reachable b (s.mountEffect now y)
  | mode (s : App) (m : String) : Reachable b s → Reachable b (s.setMode m)
  | result (s : App) (ok : Bool) : Reachable b s → Reachable b (handleResult s ok)

/-- States reachable when `handleResult` is only called while the session is
in progress, which is when a card is on screen. -/
inductive ReachableInProgress (b : List Question) : App → Prop
  | init (ls : Store) : ReachableInProgress b (App.init ls b)
  | effect (s : App) (now y : JSDate) :
      ReachableInProgress b s → ReachableInProgress b (s.mountEffect now y)
  | mode (s : App) (m : String) :
      ReachableInProgress b s → ReachableInProgress b (s.setMode m)
  | result (s : App) (ok : Bool) :
      ReachableInProgress b s → s.idx < s.queue.length →
      ReachableInProgress b (handleResult s ok)

/-- Models `const current = bank.find((b) => b.id === queue[idx])`. -/
def current (b : List Question) (s : App) : Option Question :=
  b.find? (fun q => decide (some q.id = s.queue.getD s.idx none))

/-- What `App` renders in its card area. -/
inductive Screen where
  | summary
  | recallCard
  | mcqCard
  | swipeCard
deriving DecidableEq, Repr

/-- Models the conditional rendering of `App`: the summary once finished,
otherwise the card of the selected mode. -/
def App.screen (s : App) : Screen :=
  if finished s then Screen.summary
  else if s.mode = "Recall" then Screen.recallCard
  else if s.mode = "Multiple Choice" then Screen.mcqCard
  else Screen.swipeCard

/-! ## Mode components -/

/-- Models `text.toLowerCase()` on ASCII text; characters outside `A` to `Z`
are left as they are. -/
def toLowerCase (text : String) : String := String.mk (text.data.map Char.toLower)

/-- Substring test on character lists: `r` occurs in `t` at some offset. -/
def includesChars (r : List Char) : List Char → Bool
  | [] => r.isEmpty
  | c :: t => r.isPrefixOf (c :: t) || includesChars r t

/-- Models `t.includes(r)`. -/
def includes (t r : String) : Bool := includesChars r.data t.data

/-- Models the memoised `ok` of `RecallCard` for the text typed so far. -/
def RecallCard.ok (q : Question) (text : String) : Bool :=
  let t := toLowerCase text
  q.rubric.all (fun r => includes t r)

/-- The local state `picked` of one `MCQCard` instance. -/
structure MCQCard where
  picked : Option String
deriving DecidableEq, Repr

/-- Models the `onClick` handler of the button of choice `c` in `MCQCard`:
`if (!picked) setPicked(c.key); onResult(Boolean(c.correct));`
with `onResult` being `handleResult`. -/
def MCQCard.onClick (card : MCQCard) (c : Choice) (s : App) : MCQCard × App :=
  ({ picked := if falsy card.picked then some c.key else card.picked },
    handleResult s c.correct)

/-- The local state `decision` of one `SwipeCard` instance. -/
structure SwipeCard where
  decision : Option Bool
deriving DecidableEq, Repr

/-- Models `decide(val)` of `SwipeCard` for a question `q`:
`if (decision !== null) return; setDecision(val); onResult(val === q.swipe.legal);`. -/
def SwipeCard.decide (card : SwipeCard) (q : Question) (val : Bool) (s : App) :
    SwipeCard × App :=
  if card.decision ≠ none then (card, s)
  else ({ decision := some val }, handleResult s (val == q.legal))

/-! ## Summary -/

/-- A finite non-negative binary64 number, with value `mant * 2 ^ exp`.  The
exponent range is not modelled: the values formed below lie between
`2 ^ (-53)` and `2 ^ 7`, far inside the normal range of binary64. -/
structure Binary64 where
  mant : Nat
  exp : Int
deriving DecidableEq, Repr

/-- The rational value of a binary64 number. -/
def Binary64.val (x : Binary64) : ℚ := (x.mant : ℚ) * (2 : ℚ) ^ x.exp

/-- The binary64 number nearest to the rational `n / d` (round to nearest,
ties to even, 53 significant bits), which is the result IEEE 754 prescribes
for a division or multiplication whose exact result is `n / d`. -/
def fl (n d : Nat) : Binary64 :=
  if n = 0 then { mant := 0, exp := 0 }
  else
    let e := floorLog2 n d - 52
    if 0 ≤ e then { mant := divNearestEven n (d * 2 ^ e.toNat), exp := e }
    else { mant := divNearestEven (n * 2 ^ (-e).toNat) d, exp := e }

/-- Models `a / b` for integer-valued numbers `a` and `b` below `2 ^ 53`. -/
def jsDiv (a b : Nat) : Binary64 := fl a b

/-- Models `x * k` for a binary64 `x` and an integer-valued `k`: the exact
product, rounded. -/
def jsMul (x : Binary64) (k : Nat) : Binary64 :=
  if 0 ≤ x.exp then fl (x.mant * k * 2 ^ x.exp.toNat) 1
  else fl (x.mant * k) (2 ^ (-x.exp).toNat)

/-- Models `Math.round(x)` for non-negative `x`: the integer nearest to `x`,
halves going up, that is the floor of `x + 1/2`. -/
def mathRound (x : Binary64) : Nat :=
  if 0 ≤ x.exp then x.mant * 2 ^ x.exp.toNat
  else (2 * x.mant + 2 ^ (-x.exp).toNat) / 2 ^ ((-x.exp).toNat + 1)

/-- Models `pct` of `Summary`:
`total ? Math.round((correct / total) * 100) : 0`. -/
def Summary.pct (correct incorrect : Nat) : Nat :=
  let total := correct + incorrect
  if total ≠ 0 then mathRound (jsMul (jsDiv correct total) 100) else 0

/-- The percentage in the words of the specification: 0 when both counts are
zero, otherwise the integer nearest to the exact rational
`100 * correct / (correct + incorrect)`, halves rounded up. -/
def summarize (correct incorrect : Nat) : ℤ :=
  if correct + incorrect = 0 then 0
  else ⌊(correct : ℚ) / (correct + incorrect : ℕ) * 100 + 1 / 2⌋

/-- Closed form of `summarize` in natural-number arithmetic. -/
def roundHalfUpPct (correct incorrect : Nat) : Nat :=
  if correct + incorrect = 0 then 0
  else (200 * correct + (correct + incorrect)) / (2 * (correct + incorrect))

/-- The exact percentage `100 * correct / (correct + incorrect)` lies exactly
halfway between two integers. -/
def ExactHalf (correct incorrect : Nat) : Prop :=
  ∃ k : ℤ, (correct : ℚ) / (correct + incorrect : ℕ) * 100 = k + 1 / 2

/-! ## Notions used in the statements and proofs -/

/-- The value of a normalized pair. -/
def pairVal (m : Nat) (e : Int) : ℚ := (m : ℚ) * (2 : ℚ) ^ e

/-- A mantissa and exponent that binary64 can hold, in normalized form. -/
def Representable (m : Nat) (e : Int) : Prop :=
  (m = 0 ∧ e = 0) ∨
  (m % 2 = 1 ∧ m < 2 ^ 53 ∧ -1074 ≤ e ∧ pairVal m e ≤ (2 ^ 53 - 1) * 2 ^ 971)

/-- The exponent that `round64` rounds at. -/
def roundExp (n d : Nat) : Int := max (floorLog2 n d) (-1022) - 52

/-- A Number whose mantissa and exponent binary64 can hold. -/
def JSNumber.WellFormed : JSNumber → Prop
  | JSNumber.finite _ m e => Representable m e
  | _ => True

/-- The signed value of a finite Number. -/
def signedVal (s : Bool) (m : Nat) (e : Int) : ℚ := (if s then -1 else 1) * pairVal m e

/-- A character that occurs in the text of a finite Number. -/
def isDecimalChar (c : Char) : Bool :=
  isDecimalDigit c || c = '.' || c = 'e' || c = '+' || c = '-'

/-- The text of an optional fraction part. -/
def fractionChars : Option (List Char) → List Char
  | none => []
  | some fd => '.' :: fd

/-- The text of an optional exponent part. -/
def exponentChars : Option (List Char) → List Char
  | none => []
  | some es => 'e' :: es

/-- The value `E` of an optional exponent part, 0 when there is none. -/
def ExponentIs : Option (List Char) → Int → Prop
  | none, E => E = 0
  | some es, E => parseSignedInteger es = some E

/-- The text of a decimal literal with integer digits `ip`, an optional
fraction and an optional exponent part. -/
def literalChars (ip : List Char) (fp ex : Option (List Char)) : List Char :=
  ip ++ (fractionChars fp ++ exponentChars ex)

/-! ## Sample inputs -/

/-- A store with no entry. -/
def emptyStore : Store := fun _ => none

/-- Choice `a` of the seeded question, which is not the flagged one. -/
def choiceA : Choice := { key := "a", text := "Legal play", correct := false }

/-- Choice `b` of the seeded question, the flagged one. -/
def choiceB : Choice := { key := "b", text := "Double dribble", correct := true }

/-- A freshly mounted multiple-choice card. -/
def freshCard : MCQCard := { picked := none }

/-- The card and the session after choice `a` is selected at session start. -/
def afterFirstPick : MCQCard × App :=
  freshCard.onClick choiceA (App.init emptyStore bank)

/-- The card and the session after choice `b` is then selected on the same card. -/
def afterSecondPick : MCQCard × App :=
  afterFirstPick.1.onClick choiceB afterFirstPick.2

/-- A question whose rubric has a keyword with capital letters. -/
def questionCaps : Question :=
  { id := "caps", rubric := ["FIBA"], choices := [], legal := true }

/-- A question whose identifier is `A`. -/
def questionA : Question := { id := "A", rubric := [], choices := [], legal := true }

/-- The initial session over the one-item catalog `[A]` and an empty store. -/
def sessionA : App := App.init emptyStore [questionA]

/-- The first of March 2024, a day after a leap day. -/
def march1 : JSDate := { fullYear := 2024, month := 2, date := 1 }

/-- The leap day 29 February 2024. -/
def feb29 : JSDate := { fullYear := 2024, month := 1, date := 29 }

/-- The day before the leap day, 28 February 2024. -/
def feb28 : JSDate := { fullYear := 2024, month := 1, date := 28 }

/-- The day 27 February 2024, two days before the leap day. -/
def feb27 : JSDate := { fullYear := 2024, month := 1, date := 27 }

/-- A store whose last active day is 29 February 2024 with streak 3. -/
def storeFeb29 : Store :=
  setItem (setItem emptyStore LS.STREAK "3") LS.LAST_DAY "2024-02-29"

/-- A store whose last active day is 27 February 2024 with streak 3. -/
def storeFeb27 : Store :=
  setItem (setItem emptyStore LS.STREAK "3") LS.LAST_DAY "2024-02-27"

/-- A store whose last active day is 1 March 2024 with streak 5. -/
def storeMarch1 : Store :=
  setItem (setItem emptyStore LS.STREAK "5") LS.LAST_DAY "2024-03-01"

/-- A store whose last active day is 29 February 2024 with the streak
`2 ^ 53`, the first integer whose successor binary64 does not hold. -/
def storeStreakBig : Store :=
  setItem (setItem emptyStore LS.STREAK "9007199254740992") LS.LAST_DAY "2024-02-29"

/-- A store whose last active day is 29 February 2024 and which holds no
streak entry. -/
def storeNoStreak : Store := setItem emptyStore LS.LAST_DAY "2024-02-29"

/-- A store whose streak entry is a number written with surrounding blanks. -/
def storeStreakBlanks : Store :=
  setItem (setItem emptyStore LS.STREAK " 7 ") LS.LAST_DAY "2024-02-29"

/-- A store whose experience total is `2 ^ 54`. -/
def storeXpBig : Store := setItem emptyStore LS.XP "18014398509481984"

/-! ## Theorems -/

/-! ### Rounding to binary64 -/

/-- Repeated halving finds the position of the leading bit. -/
theorem log2Aux_spec (fuel : Nat) : ∀ n : Nat, n ≤ fuel → 1 ≤ n →
    2 ^ log2Aux fuel n ≤ n ∧ n < 2 ^ (log2Aux fuel n + 1) := by
  induction fuel with
  | zero => intro n h1 h2; omega
  | succ fuel ih =>
    intro n h1 h2
    unfold log2Aux
    by_cases h : 2 ≤ n
    · obtain ⟨ha, hb⟩ := ih (n / 2) (by omega) (by omega)
      simp only [h, if_true]
      rw [pow_succ, pow_succ]
      rw [pow_succ] at hb
      constructor <;> omega
    · have : n = 1 := by omega
      subst this
      simp

/-- The leading bit of a positive number. -/
theorem log2_spec (n : Nat) (h : 1 ≤ n) : 2 ^ log2 n ≤ n ∧ n < 2 ^ (log2 n + 1) :=
  log2Aux_spec n n le_rfl h

/-- The binade of a positive quotient: `2 ^ e ≤ n / d < 2 ^ (e + 1)`. -/
theorem floorLog2_spec (n d : Nat) (hn : 1 ≤ n) (hd : 1 ≤ d) :
    (2 : ℚ) ^ floorLog2 n d ≤ (n : ℚ) / d ∧ (n : ℚ) / d < (2 : ℚ) ^ (floorLog2 n d + 1) := by
  obtain ⟨ha1, ha2⟩ := log2_spec n hn
  obtain ⟨hb1, hb2⟩ := log2_spec d hd
  have hdq : (0 : ℚ) < d := by exact_mod_cast hd
  have h2 : (2 : ℚ) ≠ 0 := by norm_num
  have hpa : (0 : ℚ) < 2 ^ log2 n := by positivity
  have hpb : (0 : ℚ) < 2 ^ log2 d := by positivity
  have ha1q : ((2 : ℚ) ^ log2 n) ≤ n := by exact_mod_cast ha1
  have ha2q : (n : ℚ) < 2 ^ (log2 n + 1) := by exact_mod_cast ha2
  have hb1q : ((2 : ℚ) ^ log2 d) ≤ d := by exact_mod_cast hb1
  have hb2q : (d : ℚ) < 2 ^ (log2 d + 1) := by exact_mod_cast hb2
  rw [pow_succ] at ha2q hb2q
  unfold floorLog2
  by_cases h : d * 2 ^ log2 n ≤ n * 2 ^ log2 d
  · have hq : (d : ℚ) * 2 ^ log2 n ≤ n * 2 ^ log2 d := by exact_mod_cast h
    simp only [h, if_true]
    rw [zpow_add₀ h2, zpow_sub₀ h2, zpow_natCast, zpow_natCast, zpow_one]
    constructor
    · rw [div_le_div_iff₀ hpb hdq]; linarith
    · rw [div_mul_eq_mul_div, div_lt_div_iff₀ hdq hpb]; nlinarith
  · have hq : (n : ℚ) * 2 ^ log2 d < d * 2 ^ log2 n := by
      have := Nat.lt_of_not_le h
      exact_mod_cast this
    simp only [h, if_false]
    rw [sub_add_cancel, zpow_sub₀ h2, zpow_sub₀ h2, zpow_natCast, zpow_natCast, zpow_one]
    constructor
    · rw [div_div, div_le_div_iff₀ (by positivity) hdq]; nlinarith
    · rw [div_lt_div_iff₀ hdq hpb]; linarith

/-- Rounding a quotient to an integer moves it by at most one half. -/
theorem divNearestEven_spec (n d : Nat) (hd : 1 ≤ d) :
    |(divNearestEven n d : ℚ) - (n : ℚ) / d| ≤ 1 / 2 := by
  have hdq : (0 : ℚ) < d := by exact_mod_cast hd
  have hn : (n : ℚ) = d * (n / d : ℕ) + (n % d : ℕ) := by
    exact_mod_cast (Nat.div_add_mod n d).symm
  have hr : n % d < d := Nat.mod_lt _ hd
  have hrq : ((n % d : ℕ) : ℚ) < d := by exact_mod_cast hr
  have hr0 : (0 : ℚ) ≤ ((n % d : ℕ) : ℚ) := by positivity
  have key : (n : ℚ) / d = (n / d : ℕ) + ((n % d : ℕ) : ℚ) / d := by
    rw [div_eq_iff (ne_of_gt hdq), add_mul, div_mul_cancel₀ _ (ne_of_gt hdq)]
    linarith
  unfold divNearestEven
  simp only
  rw [key, abs_le]
  split_ifs with h1 h2 h3
  · have : (2 : ℚ) * (n % d : ℕ) < d := by exact_mod_cast h1
    constructor
    · rw [neg_le_sub_iff_le_add]
      have : ((n % d : ℕ) : ℚ) / d ≤ 1 / 2 := by rw [div_le_div_iff₀ hdq (by norm_num)]; linarith
      linarith
    · have : 0 ≤ ((n % d : ℕ) : ℚ) / d := by positivity
      linarith
  · have : (d : ℚ) < 2 * (n % d : ℕ) := by exact_mod_cast h2
    have h5 : (1 : ℚ) / 2 ≤ ((n % d : ℕ) : ℚ) / d := by
      rw [div_le_div_iff₀ (by norm_num) hdq]; linarith
    have h6 : ((n % d : ℕ) : ℚ) / d ≤ 1 := by rw [div_le_one hdq]; linarith
    push_cast
    constructor <;> linarith
  · have h4 : 2 * (n % d) = d := by omega
    have h4q : (2 : ℚ) * (n % d : ℕ) = d := by exact_mod_cast h4
    have h5 : ((n % d : ℕ) : ℚ) / d = 1 / 2 := by
      rw [div_eq_div_iff (ne_of_gt hdq) (by norm_num)]; linarith
    rw [h5]
    constructor <;> linarith
  · have h4 : 2 * (n % d) = d := by omega
    have h4q : (2 : ℚ) * (n % d : ℕ) = d := by exact_mod_cast h4
    have h5 : ((n % d : ℕ) : ℚ) / d = 1 / 2 := by
      rw [div_eq_div_iff (ne_of_gt hdq) (by norm_num)]; linarith
    rw [h5]
    push_cast
    constructor <;> linarith

/-- An error of one half in the significand is half a unit in the last place. -/
theorem scaled_abs (m x P : ℚ) (hP : 0 < P) (h : |m - x / P| ≤ 1 / 2) :
    |m * P - x| ≤ P / 2 := by
  have e : m * P - x = (m - x / P) * P := by field_simp
  rw [e, abs_mul, abs_of_pos hP]
  nlinarith [abs_nonneg (m - x / P)]

/-- Stripping factors of two from an odd number times a power of two. -/
theorem stripTwos_pow (m : Nat) (hm : m % 2 = 1) : ∀ (j fuel : Nat) (e : Int), j < fuel →
    stripTwos fuel (m * 2 ^ j) e = (m, e + j) := by
  intro j
  induction j with
  | zero =>
    intro fuel e h
    obtain ⟨f, rfl⟩ : ∃ f, fuel = f + 1 := ⟨fuel - 1, by omega⟩
    simp [stripTwos, hm]
  | succ j ih =>
    intro fuel e h
    obtain ⟨f, rfl⟩ : ∃ f, fuel = f + 1 := ⟨fuel - 1, by omega⟩
    have h1 : m * 2 ^ (j + 1) % 2 = 0 := by
      rw [pow_succ, ← mul_assoc]; simp
    have h2 : m * 2 ^ (j + 1) / 2 = m * 2 ^ j := by
      rw [pow_succ, ← mul_assoc]; simp
    unfold stripTwos
    simp only [h1, if_true, h2]
    rw [ih f (e + 1) (by omega)]
    push_cast
    congr 1
    ring

/-- Normalising an odd significand times a power of two moves the power into the exponent. -/
theorem normalize_pow (m : Nat) (hm : m % 2 = 1) (j : Nat) (e : Int) :
    normalize (m * 2 ^ j) e = (m, e + j) := by
  have hpos : 0 < m := by omega
  have h2 : 0 < 2 ^ j := by positivity
  have hne : m * 2 ^ j ≠ 0 := by positivity
  unfold normalize
  rw [if_neg hne]
  apply stripTwos_pow m hm
  calc j < 2 ^ j := Nat.lt_two_pow j
    _ ≤ m * 2 ^ j := Nat.le_mul_of_pos_left _ hpos

/-- A positive natural number is an odd number times a power of two. -/
theorem exists_odd_pow (n : Nat) (hn : n ≠ 0) : ∃ m j, m % 2 = 1 ∧ n = m * 2 ^ j := by
  obtain ⟨k, m, hm, h⟩ := Nat.exists_eq_two_pow_mul_odd hn
  exact ⟨m, k, Nat.odd_iff.mp hm, by rw [h, mul_comm]⟩

/-- A power of two in the significand can be moved into the exponent. -/
theorem pairVal_pow (m j : Nat) (e : Int) : pairVal (m * 2 ^ j) e = pairVal m (e + j) := by
  unfold pairVal
  rw [zpow_add₀ (by norm_num : (2 : ℚ) ≠ 0), zpow_natCast]
  push_cast
  ring

/-- Normalizing keeps the value, makes the mantissa odd and does not lower
the exponent. -/
theorem normalize_spec (M : Nat) (E : Int) (hM : M ≠ 0) :
    ∃ m j : Nat, m % 2 = 1 ∧ M = m * 2 ^ j ∧ normalize M E = (m, E + j) := by
  obtain ⟨m, j, hm, h⟩ := exists_odd_pow M hM
  exact ⟨m, j, hm, h, by rw [h, normalize_pow m hm]⟩

/-- Rounding an exact quotient returns it. -/
theorem divNearestEven_exact (K D : Nat) (hD : 1 ≤ D) : divNearestEven (K * D) D = K := by
  unfold divNearestEven
  have h1 : K * D / D = K := Nat.mul_div_cancel _ (by omega)
  have h2 : K * D % D = 0 := Nat.mul_mod_left _ _
  simp only [h1, h2]
  simp
  omega

/-- The scaled significand is within one half of the scaled value. -/
theorem scaledRound_spec (n d : Nat) (e : Int) (hd : 1 ≤ d) :
    |(scaledRound n d e : ℚ) - (n : ℚ) / d / 2 ^ e| ≤ 1 / 2 := by
  have hdq : (0 : ℚ) < d := by exact_mod_cast hd
  unfold scaledRound
  by_cases he : 0 ≤ e
  · simp only [he, if_true]
    have hk : (e.toNat : ℤ) = e := Int.toNat_of_nonneg he
    have hD : 1 ≤ d * 2 ^ e.toNat := Nat.mul_pos hd (by positivity)
    have := divNearestEven_spec n (d * 2 ^ e.toNat) hD
    have e1 : (n : ℚ) / d / 2 ^ e = (n : ℚ) / ((d * 2 ^ e.toNat : ℕ) : ℚ) := by
      rw [← hk, zpow_natCast, div_div]
      push_cast
      rw [hk]
    rw [e1]
    exact this
  · simp only [he, if_false]
    have hk : ((-e).toNat : ℤ) = -e := Int.toNat_of_nonneg (by omega)
    have := divNearestEven_spec (n * 2 ^ (-e).toNat) d hd
    have e1 : (n : ℚ) / d / 2 ^ e = ((n * 2 ^ (-e).toNat : ℕ) : ℚ) / d := by
      have e2 : (2 : ℚ) ^ e = ((2 : ℚ) ^ (-e).toNat)⁻¹ := by
        rw [← zpow_natCast, hk, zpow_neg, inv_inv]
      rw [e2]
      push_cast
      field_simp
    rw [e1]
    exact this

/-- A value that is an integer at the exponent of its last place is its own significand. -/
theorem scaledRound_exact (n d K : Nat) (e : Int) (hd : 1 ≤ d)
    (h : (n : ℚ) / d = (K : ℚ) * 2 ^ e) : scaledRound n d e = K := by
  have hdq : (0 : ℚ) < d := by exact_mod_cast hd
  unfold scaledRound
  by_cases he : 0 ≤ e
  · simp only [he, if_true]
    have hk : (e.toNat : ℤ) = e := Int.toNat_of_nonneg he
    have hD : 1 ≤ d * 2 ^ e.toNat := Nat.mul_pos hd (by positivity)
    have hn : n = K * (d * 2 ^ e.toNat) := by
      rw [← hk, zpow_natCast, div_eq_iff (ne_of_gt hdq)] at h
      have : (n : ℚ) = ((K * (d * 2 ^ e.toNat) : ℕ) : ℚ) := by
        push_cast; rw [h]; ring
      exact_mod_cast this
    rw [hn]
    exact divNearestEven_exact K _ hD
  · simp only [he, if_false]
    have hk : ((-e).toNat : ℤ) = -e := Int.toNat_of_nonneg (by omega)
    have e2 : (2 : ℚ) ^ e = ((2 : ℚ) ^ (-e).toNat)⁻¹ := by
      rw [← zpow_natCast, hk, zpow_neg, inv_inv]
    have hp : (0 : ℚ) < 2 ^ (-e).toNat := by positivity
    have hn : n * 2 ^ (-e).toNat = K * d := by
      rw [e2, div_eq_iff (ne_of_gt hdq)] at h
      have : ((n * 2 ^ (-e).toNat : ℕ) : ℚ) = ((K * d : ℕ) : ℚ) := by
        push_cast; rw [h]; field_simp
      exact_mod_cast this
    rw [hn]
    exact divNearestEven_exact K d hd

/-- A value between two powers of two orders their exponents. -/
theorem two_zpow_lt {a b : ℤ} {x : ℚ} (h1 : (2 : ℚ) ^ a ≤ x) (h2 : x < (2 : ℚ) ^ b) : a < b :=
  (zpow_lt_zpow_iff_right₀ (by norm_num : (1 : ℚ) < 2)).mp (lt_of_le_of_lt h1 h2)

/-- Powers of two grow with the exponent. -/
theorem two_zpow_mono {a b : ℤ} (h : a ≤ b) : (2 : ℚ) ^ a ≤ (2 : ℚ) ^ b :=
  zpow_le_zpow_right₀ (by norm_num : (1 : ℚ) ≤ 2) h

/-- The exponent of the last place is at least that of the subnormal numbers. -/
theorem roundExp_ge (n d : Nat) : -1074 ≤ roundExp n d := by
  unfold roundExp
  have := le_max_right (floorLog2 n d) (-1022)
  omega

/-- The exponent of the last place is 52 below the binade, or it is clamped. -/
theorem roundExp_le (n d : Nat) (hn : 1 ≤ n) (hd : 1 ≤ d) :
    (2 : ℚ) ^ (roundExp n d + 52) ≤ (n : ℚ) / d ∨ roundExp n d = -1074 := by
  unfold roundExp
  rcases le_total (floorLog2 n d) (-1022) with h | h
  · right; rw [max_eq_right h]; norm_num
  · left; rw [max_eq_left h, sub_add_cancel]
    exact (floorLog2_spec n d hn hd).1

/-- The scaled value is below `2 ^ 53`. -/
theorem scaled_lt (n d : Nat) (hn : 1 ≤ n) (hd : 1 ≤ d) :
    (n : ℚ) / d / 2 ^ roundExp n d < 2 ^ 53 := by
  have h2 := (floorLog2_spec n d hn hd).2
  have hp : (0 : ℚ) < 2 ^ roundExp n d := by positivity
  rw [div_lt_iff₀ hp]
  have : (2 : ℚ) ^ (floorLog2 n d + 1) ≤ 2 ^ 53 * 2 ^ roundExp n d := by
    have e : (2 : ℚ) ^ 53 * 2 ^ roundExp n d = 2 ^ (53 + roundExp n d) := by
      rw [zpow_add₀ (by norm_num : (2 : ℚ) ≠ 0)]; norm_num
    rw [e]
    apply two_zpow_mono
    unfold roundExp
    have := le_max_left (floorLog2 n d) (-1022)
    omega
  linarith

/-- The rounded significand is at most `2 ^ 53`. -/
theorem scaledRound_le (n d : Nat) (hn : 1 ≤ n) (hd : 1 ≤ d) :
    scaledRound n d (roundExp n d) ≤ 2 ^ 53 := by
  have h1 := abs_le.mp (scaledRound_spec n d (roundExp n d) hd)
  have h2 := scaled_lt n d hn hd
  have h3 : (scaledRound n d (roundExp n d) : ℚ) < ((2 ^ 53 + 1 : ℕ) : ℚ) := by
    push_cast; linarith [h1.2]
  have h4 : scaledRound n d (roundExp n d) < 2 ^ 53 + 1 := by exact_mod_cast h3
  omega

/-- The value of a pair with a non-negative exponent is a natural number. -/
theorem nat_zpow_eq (M : Nat) (E : Int) (hE : 0 ≤ E) :
    ((M * 2 ^ E.toNat : ℕ) : ℚ) = pairVal M E := by
  unfold pairVal
  have hk : (E.toNat : ℤ) = E := Int.toNat_of_nonneg hE
  rw [← hk, zpow_natCast, hk]
  push_cast
  rfl

/-- At a non-negative exponent the rounded significand has 53 bits. -/
theorem scaledRound_ge (n d : Nat) (hn : 1 ≤ n) (hd : 1 ≤ d) (hE : 0 ≤ roundExp n d) :
    2 ^ 52 ≤ scaledRound n d (roundExp n d) := by
  have hlow : (2 : ℚ) ^ 52 ≤ (n : ℚ) / d / 2 ^ roundExp n d := by
    rcases roundExp_le n d hn hd with h1 | h1
    · have hp : (0 : ℚ) < 2 ^ roundExp n d := by positivity
      rw [le_div_iff₀ hp]
      rw [zpow_add₀ (by norm_num : (2 : ℚ) ≠ 0)] at h1
      have : ((2 : ℚ) ^ (52 : ℤ)) = 2 ^ 52 := by norm_num
      rw [this] at h1
      linarith
    · omega
  have hs := abs_le.mp (scaledRound_spec n d (roundExp n d) hd)
  have h' : ((2 ^ 52 - 1 : ℕ) : ℚ) < ((scaledRound n d (roundExp n d) : ℕ) : ℚ) := by
    rw [Nat.cast_sub (by norm_num)]
    push_cast
    linarith [hs.1]
  have : 2 ^ 52 - 1 < scaledRound n d (roundExp n d) := by exact_mod_cast h'
  omega

/-- The overflow test of `round64` holds exactly when the rounded value
reaches `2 ^ 1024`. -/
theorem overflow_iff (n d : Nat) (hn : 1 ≤ n) (hd : 1 ≤ d) :
    (971 < roundExp n d ∨
        (roundExp n d = 971 ∧ scaledRound n d (roundExp n d) = 2 ^ 53)) ↔
      (0 ≤ roundExp n d ∧
        2 ^ 1024 ≤ scaledRound n d (roundExp n d) * 2 ^ (roundExp n d).toNat) := by
  have hM := scaledRound_le n d hn hd
  have hMq : ((scaledRound n d (roundExp n d) : ℕ) : ℚ) ≤ 2 ^ 53 := by exact_mod_cast hM
  have hM0 : (0 : ℚ) ≤ ((scaledRound n d (roundExp n d) : ℕ) : ℚ) := by positivity
  have hcast : ∀ hE : 0 ≤ roundExp n d,
      (2 ^ 1024 ≤ scaledRound n d (roundExp n d) * 2 ^ (roundExp n d).toNat ↔
        (2 : ℚ) ^ 1024 ≤ pairVal (scaledRound n d (roundExp n d)) (roundExp n d)) := by
    intro hE
    rw [← nat_zpow_eq _ _ hE]
    constructor
    · intro h
      have : ((2 ^ 1024 : ℕ) : ℚ)
          ≤ ((scaledRound n d (roundExp n d) * 2 ^ (roundExp n d).toNat : ℕ) : ℚ) := by
        exact_mod_cast h
      push_cast at this ⊢
      exact this
    · intro h
      have : ((2 ^ 1024 : ℕ) : ℚ)
          ≤ ((scaledRound n d (roundExp n d) * 2 ^ (roundExp n d).toNat : ℕ) : ℚ) := by
        push_cast at h ⊢
        exact h
      exact_mod_cast this
  constructor
  · rintro (h | ⟨h1, h2⟩)
    · have hE : 0 ≤ roundExp n d := by omega
      refine ⟨hE, (hcast hE).mpr ?_⟩
      have hM52 : (2 : ℚ) ^ 52 ≤ ((scaledRound n d (roundExp n d) : ℕ) : ℚ) := by
        exact_mod_cast scaledRound_ge n d hn hd hE
      have h972 : (2 : ℚ) ^ (972 : ℤ) ≤ 2 ^ roundExp n d := two_zpow_mono (by omega)
      unfold pairVal
      have e1 : (2 : ℚ) ^ 1024 = 2 ^ 52 * 2 ^ (972 : ℤ) := by norm_num
      rw [e1]
      exact mul_le_mul hM52 h972 (by positivity) hM0
    · have hE : 0 ≤ roundExp n d := by omega
      refine ⟨hE, (hcast hE).mpr ?_⟩
      unfold pairVal
      rw [h2, h1]
      norm_num
  · rintro ⟨hE, h⟩
    have hq := (hcast hE).mp h
    unfold pairVal at hq
    by_contra hc
    push_neg at hc
    obtain ⟨hc1, hc2⟩ := hc
    have hp : (0 : ℚ) < 2 ^ roundExp n d := by positivity
    rcases lt_or_eq_of_le hc1 with hlt | heq
    · have h970 : (2 : ℚ) ^ roundExp n d ≤ 2 ^ (970 : ℤ) := two_zpow_mono (by omega)
      have h3 : ((scaledRound n d (roundExp n d) : ℕ) : ℚ) * 2 ^ roundExp n d
          ≤ 2 ^ 53 * 2 ^ (970 : ℤ) := mul_le_mul hMq h970 (le_of_lt hp) (by positivity)
      have h4 : (2 : ℚ) ^ 53 * 2 ^ (970 : ℤ) < 2 ^ 1024 := by norm_num
      linarith
    · have hne := hc2 heq
      have hlt : scaledRound n d (roundExp n d) ≤ 2 ^ 53 - 1 := by omega
      have hltq : ((scaledRound n d (roundExp n d) : ℕ) : ℚ) ≤ 2 ^ 53 - 1 := by
        have h' : ((scaledRound n d (roundExp n d) : ℕ) : ℚ) ≤ ((2 ^ 53 - 1 : ℕ) : ℚ) := by
          exact_mod_cast hlt
        rw [Nat.cast_sub (by norm_num)] at h'
        push_cast at h'
        exact h'
      rw [heq] at hq hltq
      have h3 : ((scaledRound n d 971 : ℕ) : ℚ) * 2 ^ (971 : ℤ)
          ≤ (2 ^ 53 - 1) * 2 ^ (971 : ℤ) :=
        mul_le_mul_of_nonneg_right hltq (by positivity)
      have h4 : ((2 : ℚ) ^ 53 - 1) * 2 ^ (971 : ℤ) < 2 ^ 1024 := by norm_num
      linarith

/-- The rounding function with its overflow test written as a comparison with `2 ^ 1024`. -/
theorem round64_eq (n d : Nat) (hn : 1 ≤ n) (hd : 1 ≤ d) :
    round64 n d =
      if 0 ≤ roundExp n d ∧ 2 ^ 1024 ≤ scaledRound n d (roundExp n d) * 2 ^ (roundExp n d).toNat
      then none
      else some (normalize (scaledRound n d (roundExp n d)) (roundExp n d)) := by
  have hn0 : n ≠ 0 := by omega
  have h := overflow_iff n d hn hd
  by_cases hov : 0 ≤ roundExp n d ∧
      2 ^ 1024 ≤ scaledRound n d (roundExp n d) * 2 ^ (roundExp n d).toNat
  · rw [if_pos hov]
    simp only [round64, hn0, if_false]
    exact if_pos (h.mpr hov)
  · rw [if_neg hov]
    simp only [round64, hn0, if_false]
    exact if_neg (fun hc => hov (h.mp hc))

/-- Rounding a value that binary64 holds gives that value. -/
theorem round64_exact (n d m : Nat) (e : Int) (hn : 1 ≤ n) (hd : 1 ≤ d)
    (hodd : m % 2 = 1) (hm : m < 2 ^ 53) (he : -1074 ≤ e)
    (hmax : pairVal m e < 2 ^ 1024) (h : (n : ℚ) / d = pairVal m e) :
    round64 n d = some (m, e) := by
  have hmq : (m : ℚ) < 2 ^ 53 := by exact_mod_cast hm
  have hle : roundExp n d ≤ e := by
    rcases roundExp_le n d hn hd with h1 | h1
    · have h5 : (n : ℚ) / d < (2 : ℚ) ^ (53 + e) := by
        rw [h, pairVal, zpow_add₀ (by norm_num : (2 : ℚ) ≠ 0)]
        have hp : (0 : ℚ) < 2 ^ e := by positivity
        have : ((2 : ℚ) ^ (53 : ℤ)) = 2 ^ 53 := by norm_num
        rw [this]
        exact mul_lt_mul_of_pos_right hmq hp
      have := two_zpow_lt h1 h5
      omega
    · omega
  obtain ⟨j, hj⟩ : ∃ j : Nat, e = roundExp n d + j := ⟨(e - roundExp n d).toNat, by omega⟩
  have hval : pairVal (m * 2 ^ j) (roundExp n d) = pairVal m e := by
    rw [pairVal_pow, hj]
  have hK : scaledRound n d (roundExp n d) = m * 2 ^ j := by
    apply scaledRound_exact n d _ _ hd
    rw [h, ← hval]
    rfl
  rw [round64_eq n d hn hd, hK, if_neg, normalize_pow m hodd, hj]
  rintro ⟨hE, hov⟩
  have h6 : ((2 ^ 1024 : ℕ) : ℚ) ≤ ((m * 2 ^ j * 2 ^ (roundExp n d).toNat : ℕ) : ℚ) := by
    exact_mod_cast hov
  rw [nat_zpow_eq _ _ hE, hval] at h6
  push_cast at h6
  linarith

/-- What `round64` returns is a binary64 value in normalized form. -/
theorem round64_representable (n d m : Nat) (e : Int) (hd : 1 ≤ d)
    (h : round64 n d = some (m, e)) : Representable m e := by
  rcases Nat.eq_zero_or_pos n with hn | hn
  · subst hn
    rw [round64, if_pos rfl] at h
    obtain ⟨rfl, rfl⟩ := Prod.mk.inj (Option.some.inj h)
    exact Or.inl ⟨rfl, rfl⟩
  · rw [round64_eq n d hn hd] at h
    split_ifs at h with hov
    have hM := scaledRound_le n d hn hd
    have hEge := roundExp_ge n d
    rcases Nat.eq_zero_or_pos (scaledRound n d (roundExp n d)) with h0 | h0
    · rw [h0, normalize, if_pos rfl] at h
      obtain ⟨rfl, rfl⟩ := Prod.mk.inj (Option.some.inj h)
      exact Or.inl ⟨rfl, rfl⟩
    · obtain ⟨m', j, hodd, hMj, hnorm⟩ :=
        normalize_spec (scaledRound n d (roundExp n d)) (roundExp n d) (by omega)
      rw [hnorm] at h
      have hm' : m' = m := congrArg Prod.fst (Option.some.inj h)
      have he' : roundExp n d + j = e := congrArg Prod.snd (Option.some.inj h)
      subst hm'
      right
      have hpj : 0 < 2 ^ j := by positivity
      have hmle : m' ≤ scaledRound n d (roundExp n d) := by
        rw [hMj]; exact Nat.le_mul_of_pos_right _ hpj
      have h53 : (2 : ℕ) ^ 53 % 2 = 0 := by norm_num
      refine ⟨hodd, by omega, by omega, ?_⟩
      have hv : pairVal m' e = pairVal (scaledRound n d (roundExp n d)) (roundExp n d) := by
        rw [hMj, pairVal_pow, he']
      rw [hv]
      have hMq : ((scaledRound n d (roundExp n d) : ℕ) : ℚ) ≤ 2 ^ 53 := by exact_mod_cast hM
      have hM0 : (0 : ℚ) ≤ ((scaledRound n d (roundExp n d) : ℕ) : ℚ) := by positivity
      by_cases hE : 0 ≤ roundExp n d
      · have hno : scaledRound n d (roundExp n d) * 2 ^ (roundExp n d).toNat < 2 ^ 1024 := by
          by_contra hc
          exact hov ⟨hE, by omega⟩
        have hnoq : pairVal (scaledRound n d (roundExp n d)) (roundExp n d) < 2 ^ 1024 := by
          rw [← nat_zpow_eq _ _ hE]
          exact_mod_cast hno
        -- the scaled mantissa is at least 2 ^ 52
        have hlow : (2 : ℚ) ^ 52 ≤ (n : ℚ) / d / 2 ^ roundExp n d := by
          rcases roundExp_le n d hn hd with h1 | h1
          · have hp : (0 : ℚ) < 2 ^ roundExp n d := by positivity
            rw [le_div_iff₀ hp]
            rw [zpow_add₀ (by norm_num : (2 : ℚ) ≠ 0)] at h1
            have : ((2 : ℚ) ^ (52 : ℤ)) = 2 ^ 52 := by norm_num
            rw [this] at h1
            linarith
          · omega
        have hs := abs_le.mp (scaledRound_spec n d (roundExp n d) hd)
        have hM52q : ((2 ^ 52 : ℕ) : ℚ) - 1 < ((scaledRound n d (roundExp n d) : ℕ) : ℚ) := by
          push_cast; linarith [hs.1]
        have hM52 : 2 ^ 52 ≤ scaledRound n d (roundExp n d) := by
          have : 2 ^ 52 - 1 < scaledRound n d (roundExp n d) := by
            have h' : ((2 ^ 52 - 1 : ℕ) : ℚ) < ((scaledRound n d (roundExp n d) : ℕ) : ℚ) := by
              rw [Nat.cast_sub (by norm_num)]; push_cast; push_cast at hM52q; linarith
            exact_mod_cast h'
          omega
        have hM52q' : (2 : ℚ) ^ 52 ≤ ((scaledRound n d (roundExp n d) : ℕ) : ℚ) := by
          exact_mod_cast hM52
        have hE971 : roundExp n d ≤ 971 := by
          by_contra hc
          have h972 : (2 : ℚ) ^ (972 : ℤ) ≤ 2 ^ roundExp n d := two_zpow_mono (by omega)
          have : (2 : ℚ) ^ 1024 ≤ pairVal (scaledRound n d (roundExp n d)) (roundExp n d) := by
            unfold pairVal
            have e1 : (2 : ℚ) ^ 1024 = 2 ^ 52 * 2 ^ (972 : ℤ) := by norm_num
            rw [e1]
            exact mul_le_mul hM52q' h972 (by positivity) hM0
          linarith
        rcases Nat.lt_or_ge (scaledRound n d (roundExp n d)) (2 ^ 53) with hlt | hge
        · have hMq' : ((scaledRound n d (roundExp n d) : ℕ) : ℚ) ≤ 2 ^ 53 - 1 := by
            have : scaledRound n d (roundExp n d) ≤ 2 ^ 53 - 1 := by omega
            have h' : ((scaledRound n d (roundExp n d) : ℕ) : ℚ) ≤ ((2 ^ 53 - 1 : ℕ) : ℚ) := by
              exact_mod_cast this
            rw [Nat.cast_sub (by norm_num)] at h'
            push_cast at h'
            exact h'
          unfold pairVal
          have h971 : (2 : ℚ) ^ roundExp n d ≤ 2 ^ (971 : ℤ) := two_zpow_mono hE971
          have : ((2 : ℚ) ^ (971 : ℤ)) = 2 ^ 971 := by norm_num
          rw [this] at h971
          exact mul_le_mul hMq' h971 (by positivity) (by norm_num)
        · have hMeq : scaledRound n d (roundExp n d) = 2 ^ 53 := by omega
          have hE970 : roundExp n d ≤ 970 := by
            by_contra hc
            have h971 : (2 : ℚ) ^ (971 : ℤ) ≤ 2 ^ roundExp n d := two_zpow_mono (by omega)
            have : (2 : ℚ) ^ 1024 ≤ pairVal (scaledRound n d (roundExp n d)) (roundExp n d) := by
              unfold pairVal
              rw [hMeq]
              have e1 : (2 : ℚ) ^ 1024 = ((2 ^ 53 : ℕ) : ℚ) * 2 ^ (971 : ℤ) := by norm_num
              rw [e1]
              exact mul_le_mul le_rfl h971 (by positivity) (by positivity)
            linarith
          unfold pairVal
          rw [hMeq]
          have h970 : (2 : ℚ) ^ roundExp n d ≤ 2 ^ (970 : ℤ) := two_zpow_mono hE970
          have e1 : ((2 ^ 53 : ℕ) : ℚ) * 2 ^ (970 : ℤ) ≤ (2 ^ 53 - 1) * 2 ^ 971 := by norm_num
          have hp53 : (0 : ℚ) ≤ ((2 ^ 53 : ℕ) : ℚ) := by positivity
          linarith [mul_le_mul_of_nonneg_left h970 hp53]
      · unfold pairVal
        have hneg : (2 : ℚ) ^ roundExp n d ≤ 2 ^ (-1 : ℤ) := two_zpow_mono (by omega)
        have e1 : (2 : ℚ) ^ (-1 : ℤ) = 1 / 2 := by norm_num
        rw [e1] at hneg
        have hp : (0 : ℚ) < 2 ^ roundExp n d := by positivity
        have h3 : ((scaledRound n d (roundExp n d) : ℕ) : ℚ) * 2 ^ roundExp n d ≤ 2 ^ 53 * (1 / 2) :=
          mul_le_mul hMq hneg (le_of_lt hp) (by positivity)
        have h4 : (2 : ℚ) ^ 53 * (1 / 2) ≤ (2 ^ 53 - 1) * 2 ^ 971 := by norm_num
        linarith

/-- The scaled value of a number at least as large as the smallest subnormal is at least 1. -/
theorem scaled_ge_one (n d : Nat) (hn : 1 ≤ n) (hd : 1 ≤ d)
    (h : (2 : ℚ) ^ (-1074 : ℤ) ≤ (n : ℚ) / d) : 1 ≤ (n : ℚ) / d / 2 ^ roundExp n d := by
  have hp : (0 : ℚ) < 2 ^ roundExp n d := by positivity
  rw [le_div_iff₀ hp, one_mul]
  rcases roundExp_le n d hn hd with h1 | h1
  · exact le_trans (two_zpow_mono (by omega)) h1
  · rw [h1]; exact h

/-- A value of at least `2 ^ (-1074)` does not round to zero. -/
theorem round64_ne_zero (n d m : Nat) (e : Int) (hn : 1 ≤ n) (hd : 1 ≤ d)
    (h : (2 : ℚ) ^ (-1074 : ℤ) ≤ (n : ℚ) / d) (hr : round64 n d = some (m, e)) : m ≠ 0 := by
  rw [round64_eq n d hn hd] at hr
  split_ifs at hr with hov
  have hs := abs_le.mp (scaledRound_spec n d (roundExp n d) hd)
  have h1 := scaled_ge_one n d hn hd h
  have hM : (0 : ℚ) < ((scaledRound n d (roundExp n d) : ℕ) : ℚ) := by linarith [hs.1]
  have hM' : 0 < scaledRound n d (roundExp n d) := by exact_mod_cast hM
  obtain ⟨m', j, hodd, -, hnorm⟩ :=
    normalize_spec (scaledRound n d (roundExp n d)) (roundExp n d) (by omega)
  rw [hnorm] at hr
  have hm' : m' = m := congrArg Prod.fst (Option.some.inj hr)
  omega

/-- A value below `2 ^ 1024 - 2 ^ 970` rounds to a finite number. -/
theorem round64_isSome (n d : Nat) (hn : 1 ≤ n) (hd : 1 ≤ d)
    (h : (n : ℚ) / d < 2 ^ 1024 - 2 ^ 970) : ∃ m e, round64 n d = some (m, e) := by
  rw [round64_eq n d hn hd]
  by_cases hov : 0 ≤ roundExp n d ∧
      2 ^ 1024 ≤ scaledRound n d (roundExp n d) * 2 ^ (roundExp n d).toNat
  · exfalso
    obtain ⟨hE, hle⟩ := hov
    have h6 : ((2 ^ 1024 : ℕ) : ℚ)
        ≤ ((scaledRound n d (roundExp n d) * 2 ^ (roundExp n d).toNat : ℕ) : ℚ) := by
      exact_mod_cast hle
    rw [nat_zpow_eq _ _ hE] at h6
    push_cast at h6
    have hE971 : roundExp n d ≤ 971 := by
      rcases roundExp_le n d hn hd with h1 | h1
      · have h2 : (n : ℚ) / d < (2 : ℚ) ^ (1024 : ℤ) := by
          have : ((2 : ℚ) ^ (1024 : ℤ)) = 2 ^ 1024 := by norm_num
          rw [this]
          have : (0 : ℚ) < 2 ^ 970 := by positivity
          linarith
        have := two_zpow_lt h1 h2
        omega
      · omega
    have hs := abs_le.mp (scaledRound_spec n d (roundExp n d) hd)
    have hp : (0 : ℚ) < 2 ^ roundExp n d := by positivity
    have h971 : (2 : ℚ) ^ roundExp n d ≤ 2 ^ (971 : ℤ) := two_zpow_mono hE971
    have e971 : ((2 : ℚ) ^ (971 : ℤ)) = 2 * 2 ^ 970 := by norm_num
    rw [e971] at h971
    have h7 : pairVal (scaledRound n d (roundExp n d)) (roundExp n d)
        ≤ (n : ℚ) / d + 2 ^ roundExp n d / 2 := by
      unfold pairVal
      have h8 : ((scaledRound n d (roundExp n d) : ℕ) : ℚ)
          ≤ (n : ℚ) / d / 2 ^ roundExp n d + 1 / 2 := by linarith [hs.2]
      have h9 := mul_le_mul_of_nonneg_right h8 (le_of_lt hp)
      rw [add_mul, div_mul_cancel₀ _ (ne_of_gt hp)] at h9
      linarith
    linarith
  · rw [if_neg hov]
    exact ⟨_, _, rfl⟩

/-- Rounding yields a binary64 value. -/
theorem toNumber_wellFormed (s : Bool) (n d : Nat) (hd : 1 ≤ d) :
    (toNumber s n d).WellFormed := by
  unfold toNumber
  cases h : round64 n d with
  | none => trivial
  | some p =>
    obtain ⟨m, e⟩ := p
    exact round64_representable n d m e hd h

/-- The exponent of a binary64 pair is at least that of the subnormal numbers. -/
theorem representable_ge (m : Nat) (e : Int) (h : Representable m e) : -1074 ≤ e := by
  rcases h with ⟨-, h⟩ | ⟨-, -, h, -⟩ <;> omega

/-- The value of a binary64 pair is below `2 ^ 1024`. -/
theorem representable_le (m : Nat) (e : Int) (h : Representable m e) :
    pairVal m e ≤ (2 ^ 53 - 1) * 2 ^ 971 := by
  rcases h with ⟨h1, h2⟩ | ⟨-, -, -, h⟩
  · subst h1; subst h2; norm_num [pairVal]
  · exact h

/-- The value of a pair is not negative. -/
theorem pairVal_nonneg (m : Nat) (e : Int) : 0 ≤ pairVal m e := by
  unfold pairVal; positivity

/-- Rounding the ratio `n / d` whose value is a natural number up to `2 ^ 53`
gives the same as rounding that number. -/
theorem round64_nat (n d N : Nat) (hd : 1 ≤ d) (hN : 1 ≤ N) (hle : N ≤ 2 ^ 53)
    (h : (n : ℚ) / d = N) : round64 n d = round64 N 1 := by
  obtain ⟨m, j, hodd, hNm⟩ := exists_odd_pow N (by omega)
  have hmpos : 0 < m := by omega
  have hpj : 0 < 2 ^ j := by positivity
  have hmle : m ≤ N := by rw [hNm]; exact Nat.le_mul_of_pos_right _ hpj
  have h53 : (2 : ℕ) ^ 53 % 2 = 0 := by norm_num
  have hm : m < 2 ^ 53 := by omega
  have hv : pairVal m (j : ℤ) = N := by
    have := pairVal_pow m j 0
    rw [zero_add] at this
    rw [← this, ← hNm]
    simp [pairVal]
  have hNq : (N : ℚ) ≤ 2 ^ 53 := by exact_mod_cast hle
  have hmax : pairVal m (j : ℤ) < 2 ^ 1024 := by
    rw [hv]
    have : (2 : ℚ) ^ 53 < 2 ^ 1024 := by norm_num
    linarith
  have hn : 1 ≤ n := by
    rcases Nat.eq_zero_or_pos n with h0 | h0
    · subst h0
      simp at h
      have : (N : ℚ) = 0 := h.symm
      have : N = 0 := by exact_mod_cast this
      omega
    · exact h0
  rw [round64_exact n d m j hn hd hodd hm (by omega) hmax (by rw [h, hv]),
    round64_exact N 1 m j hN le_rfl hodd hm (by omega) hmax (by rw [hv]; simp)]

/-- The Number of a natural number up to `2 ^ 53` has that exact value. -/
theorem ofNat_toNat (N : Nat) (hle : N ≤ 2 ^ 53) : (JSNumber.ofNat N).toNat? = some N := by
  rcases Nat.eq_zero_or_pos N with h0 | h0
  · subst h0
    simp [JSNumber.ofNat, toNumber, round64, JSNumber.toNat?]
  · obtain ⟨m, j, hodd, hNm⟩ := exists_odd_pow N (by omega)
    have hpj : 0 < 2 ^ j := by positivity
    have hmle : m ≤ N := by rw [hNm]; exact Nat.le_mul_of_pos_right _ hpj
    have h53 : (2 : ℕ) ^ 53 % 2 = 0 := by norm_num
    have hm : m < 2 ^ 53 := by omega
    have hv : pairVal m (j : ℤ) = N := by
      have := pairVal_pow m j 0
      rw [zero_add] at this
      rw [← this, ← hNm]
      simp [pairVal]
    have hNq : (N : ℚ) ≤ 2 ^ 53 := by exact_mod_cast hle
    have hmax : pairVal m (j : ℤ) < 2 ^ 1024 := by
      rw [hv]
      have : (2 : ℚ) ^ 53 < 2 ^ 1024 := by norm_num
      linarith
    have hr := round64_exact N 1 m j h0 le_rfl hodd hm (by omega) hmax (by rw [hv]; simp)
    simp only [JSNumber.ofNat, toNumber, hr, JSNumber.toNat?]
    simp [hNm]

/-- Aligning a significand to a smaller exponent keeps the value. -/
theorem shift_val (m : Nat) (e c : Int) (h : c ≤ e) :
    ((m * 2 ^ (e - c).toNat : ℕ) : ℚ) * 2 ^ c = pairVal m e := by
  have hk : ((e - c).toNat : ℤ) = e - c := Int.toNat_of_nonneg (by omega)
  unfold pairVal
  push_cast
  rw [mul_assoc, ← zpow_natCast, hk, ← zpow_add₀ (by norm_num : (2 : ℚ) ≠ 0)]
  congr 2
  ring

/-- The sum of two finite Numbers is the rounded exact sum. -/
theorem add_finite_eq (s t : Bool) (m k : Nat) (e f : Int) :
    ∃ N D : Nat, 1 ≤ D ∧
      (N : ℚ) / D = |signedVal s m e + signedVal t k f| ∧
      (signedVal s m e + signedVal t k f ≠ 0 →
        1 ≤ N ∧ (2 : ℚ) ^ min e f ≤ |signedVal s m e + signedVal t k f|) ∧
      (JSNumber.finite s m e).add (JSNumber.finite t k f) =
        if signedVal s m e + signedVal t k f = 0 then JSNumber.finite (s && t) 0 0
        else toNumber (decide (signedVal s m e + signedVal t k f < 0)) N D := by
  set c := min e f with hc
  set a : Int := (if s then -1 else 1) * ((m * 2 ^ (e - c).toNat : Nat) : Int) with ha
  set b : Int := (if t then -1 else 1) * ((k * 2 ^ (f - c).toNat : Nat) : Int) with hb
  have hce : c ≤ e := min_le_left _ _
  have hcf : c ≤ f := min_le_right _ _
  have hp : (0 : ℚ) < 2 ^ c := by positivity
  have hsum : ((a + b : ℤ) : ℚ) * 2 ^ c = signedVal s m e + signedVal t k f := by
    have h1 := shift_val m e c hce
    have h2 := shift_val k f c hcf
    simp only [ha, hb, signedVal]
    push_cast
    push_cast at h1 h2
    rw [← h1, ← h2]
    cases s <;> cases t <;> simp <;> ring
  have hzero : signedVal s m e + signedVal t k f = 0 ↔ a + b = 0 := by
    rw [← hsum]
    constructor
    · intro h
      rcases mul_eq_zero.mp h with h | h
      · exact_mod_cast h
      · exact absurd h (ne_of_gt hp)
    · intro h; rw [h]; simp
  have hneg : signedVal s m e + signedVal t k f < 0 ↔ a + b < 0 := by
    rw [← hsum]
    constructor
    · intro h
      have : ((a + b : ℤ) : ℚ) < 0 := by
        by_contra hc'
        push_neg at hc'
        have := mul_nonneg hc' (le_of_lt hp)
        linarith
      exact_mod_cast this
    · intro h
      have : ((a + b : ℤ) : ℚ) < 0 := by exact_mod_cast h
      exact mul_neg_of_neg_of_pos this hp
  have habs : |signedVal s m e + signedVal t k f| = ((a + b).natAbs : ℚ) * 2 ^ c := by
    rw [← hsum, abs_mul, abs_of_pos hp]
    congr 1
    rw [Nat.cast_natAbs]
    push_cast
    rfl
  have hadd : (JSNumber.finite s m e).add (JSNumber.finite t k f) =
      if a + b = 0 then JSNumber.finite (s && t) 0 0
      else if 0 ≤ c then toNumber (decide (a + b < 0)) ((a + b).natAbs * 2 ^ c.toNat) 1
      else toNumber (decide (a + b < 0)) (a + b).natAbs (2 ^ (-c).toNat) := rfl
  have hdec : decide (signedVal s m e + signedVal t k f < 0) = decide (a + b < 0) := by
    rw [decide_eq_decide]; exact hneg
  have hlow : signedVal s m e + signedVal t k f ≠ 0 →
      1 ≤ (a + b).natAbs ∧ (2 : ℚ) ^ c ≤ |signedVal s m e + signedVal t k f| := by
    intro hne
    have hab : a + b ≠ 0 := fun h => hne (hzero.mpr h)
    have h1 : 1 ≤ (a + b).natAbs := Int.natAbs_pos.mpr hab
    refine ⟨h1, ?_⟩
    rw [habs]
    have h1q : (1 : ℚ) ≤ ((a + b).natAbs : ℚ) := by exact_mod_cast h1
    nlinarith
  by_cases hc0 : 0 ≤ c
  · refine ⟨(a + b).natAbs * 2 ^ c.toNat, 1, le_rfl, ?_, ?_, ?_⟩
    · rw [habs, Nat.cast_one, div_one, nat_zpow_eq _ _ hc0]
      rfl
    · intro hne
      obtain ⟨h1, h2⟩ := hlow hne
      exact ⟨Nat.mul_pos h1 (by positivity), h2⟩
    · rw [hadd, hdec]
      by_cases h0 : a + b = 0
      · rw [if_pos h0, if_pos (hzero.mpr h0)]
      · rw [if_neg h0, if_pos hc0, if_neg (fun h => h0 (hzero.mp h))]
  · refine ⟨(a + b).natAbs, 2 ^ (-c).toNat, Nat.one_le_two_pow, ?_, ?_, ?_⟩
    · rw [habs]
      have hk : ((-c).toNat : ℤ) = -c := Int.toNat_of_nonneg (by omega)
      have e2 : (2 : ℚ) ^ c = ((2 : ℚ) ^ (-c).toNat)⁻¹ := by
        rw [← zpow_natCast, hk, zpow_neg, inv_inv]
      rw [e2]
      push_cast
      rw [div_eq_mul_inv]
    · intro hne
      exact hlow hne
    · rw [hadd, hdec]
      by_cases h0 : a + b = 0
      · rw [if_pos h0, if_pos (hzero.mpr h0)]
      · rw [if_neg h0, if_neg hc0, if_neg (fun h => h0 (hzero.mp h))]

/-- A Number with a natural-number value is finite and has that value. -/
theorem toNat_val (a : JSNumber) (x : Nat) (h : a.toNat? = some x) :
    ∃ s m e, a = JSNumber.finite s m e ∧ signedVal s m e = x := by
  cases a with
  | nan => simp [JSNumber.toNat?] at h
  | infinity s => simp [JSNumber.toNat?] at h
  | finite s m e =>
    refine ⟨s, m, e, rfl, ?_⟩
    cases s with
    | true =>
      simp only [JSNumber.toNat?] at h
      split_ifs at h with h0
      have hx : x = 0 := (Option.some.inj h).symm
      subst hx; subst h0
      simp [signedVal, pairVal]
    | false =>
      simp only [JSNumber.toNat?] at h
      split_ifs at h with h0 h1
      · have hx : m * 2 ^ e.toNat = x := Option.some.inj h
        rw [← hx, nat_zpow_eq _ _ h0]
        simp [signedVal]
      · have hx : m / 2 ^ (-e).toNat = x := Option.some.inj h
        have hk : ((-e).toNat : ℤ) = -e := Int.toNat_of_nonneg (by omega)
        have e2 : (2 : ℚ) ^ e = ((2 : ℚ) ^ (-e).toNat)⁻¹ := by
          rw [← zpow_natCast, hk, zpow_neg, inv_inv]
        have hm : m = 2 ^ (-e).toNat * x := by
          rw [← hx]; exact (Nat.mul_div_cancel' (Nat.dvd_of_mod_eq_zero h1)).symm
        have hp : (0 : ℚ) < 2 ^ (-e).toNat := by positivity
        simp only [signedVal, pairVal, Bool.false_eq_true, if_false, one_mul, e2]
        rw [hm]
        push_cast
        field_simp

/-- The Number of a positive natural number up to `2 ^ 53`. -/
theorem ofNat_finite (N : Nat) (h0 : 1 ≤ N) (hle : N ≤ 2 ^ 53) :
    ∃ m j, JSNumber.ofNat N = JSNumber.finite false m j ∧ pairVal m j = N ∧
      Representable m j := by
  have hs : ∃ m e, round64 N 1 = some (m, e) := by
    apply round64_isSome N 1 h0 le_rfl
    have hNq : (N : ℚ) ≤ 2 ^ 53 := by exact_mod_cast hle
    have : (2 : ℚ) ^ 53 < 2 ^ 1024 - 2 ^ 970 := by norm_num
    simp only [Nat.cast_one, div_one]
    linarith
  obtain ⟨m, e, hr⟩ := hs
  have hrep := round64_representable N 1 m e le_rfl hr
  refine ⟨m, e, by simp [JSNumber.ofNat, toNumber, hr], ?_, hrep⟩
  have ht := ofNat_toNat N hle
  obtain ⟨s, m', e', heq, hv⟩ := toNat_val _ _ ht
  simp only [JSNumber.ofNat, toNumber, hr] at heq
  injection heq with h1 h2 h3
  subst h1; subst h2; subst h3
  simpa [signedVal] using hv

/-- Adding a positive integer literal to a Number with a natural-number value
gives the exact sum while it stays within `2 ^ 53`. -/
theorem add_ofNat (a : JSNumber) (x y : Nat) (ha : a.toNat? = some x) (hy : 1 ≤ y)
    (h : x + y ≤ 2 ^ 53) : a.add (JSNumber.ofNat y) = JSNumber.ofNat (x + y) := by
  obtain ⟨s, m, e, rfl, hv⟩ := toNat_val a x ha
  obtain ⟨k, f, hk, hkv, -⟩ := ofNat_finite y hy (by omega)
  rw [hk]
  obtain ⟨N, D, hD, hND, -, hadd⟩ := add_finite_eq s false m k e f
  have hsum : signedVal s m e + signedVal false k f = ((x + y : ℕ) : ℚ) := by
    rw [hv]; simp [signedVal, hkv]
  have hpos : (0 : ℚ) < ((x + y : ℕ) : ℚ) := by
    have : 0 < x + y := by omega
    exact_mod_cast this
  rw [hadd, hsum, if_neg (ne_of_gt hpos)]
  rw [hsum, abs_of_pos hpos] at hND
  have hdec : decide (((x + y : ℕ) : ℚ) < 0) = false := by
    rw [decide_eq_false_iff_not]; linarith
  rw [hdec]
  unfold JSNumber.ofNat toNumber
  rw [round64_nat N D (x + y) hD (by omega) h hND]

/-- Adding a positive integer literal to a well-formed finite Number gives a
well-formed finite Number that is not negative zero. -/
theorem add_ofNat_finite (s : Bool) (m : Nat) (e : Int) (y : Nat)
    (hrep : Representable m e) (hy : 1 ≤ y) (hle : y ≤ 2 ^ 53) :
    ∃ r m' e', (JSNumber.finite s m e).add (JSNumber.ofNat y) = JSNumber.finite r m' e' ∧
      Representable m' e' ∧ (m' = 0 → r = false) := by
  obtain ⟨k, f, hk, hkv, hkrep⟩ := ofNat_finite y hy hle
  rw [hk]
  obtain ⟨N, D, hD, hND, hlow, hadd⟩ := add_finite_eq s false m k e f
  rw [hadd]
  by_cases h0 : signedVal s m e + signedVal false k f = 0
  · rw [if_pos h0]
    exact ⟨s && false, 0, 0, rfl, Or.inl ⟨rfl, rfl⟩, fun _ => by simp⟩
  · rw [if_neg h0]
    obtain ⟨hN, hge⟩ := hlow h0
    have hbound : (N : ℚ) / D < 2 ^ 1024 - 2 ^ 970 := by
      rw [hND]
      have h1 : |signedVal s m e + signedVal false k f|
          ≤ |signedVal s m e| + |signedVal false k f| := abs_add _ _
      have h2 : |signedVal s m e| = pairVal m e := by
        unfold signedVal
        cases s <;> simp [abs_of_nonneg (pairVal_nonneg m e)]
      have h3 : |signedVal false k f| = pairVal k f := by
        unfold signedVal
        simp [abs_of_nonneg (pairVal_nonneg k f)]
      have h4 := representable_le m e hrep
      have hyq : (y : ℚ) ≤ 2 ^ 53 := by exact_mod_cast hle
      have h5 : ((2 : ℚ) ^ 53 - 1) * 2 ^ 971 + 2 ^ 53 < 2 ^ 1024 - 2 ^ 970 := by norm_num
      rw [h2, h3, hkv] at h1
      linarith
    obtain ⟨m', e', hr⟩ := round64_isSome N D hN hD hbound
    have hrep' := round64_representable N D m' e' hD hr
    have hmin : -1074 ≤ min e f :=
      le_min (representable_ge m e hrep) (representable_ge k f hkrep)
    have hne := round64_ne_zero N D m' e' hN hD
      (by rw [hND]; exact le_trans (two_zpow_mono hmin) hge) hr
    exact ⟨decide (signedVal s m e + signedVal false k f < 0), m', e',
      by simp [toNumber, hr], hrep', fun h => absurd h hne⟩

/-! ### Decimal literals -/

/-- The code point of a decimal digit character. -/
theorem digitChar_toNat (d : Nat) (h : d < 10) : (Nat.digitChar d).toNat = 48 + d := by
  interval_cases d <;> rfl

/-- Decimal digit characters are decimal digits. -/
theorem digitChar_isDecimalDigit (d : Nat) (h : d < 10) :
    isDecimalDigit (Nat.digitChar d) = true := by
  interval_cases d <;> rfl

/-- Reading back the digits produced by `Nat.toDigitsCore` gives the number. -/
theorem toDigitsCore_value (f : Nat) : ∀ (n : Nat) (ds : List Char), n < f →
    (Nat.toDigitsCore 10 f n ds).foldl (fun n c => n * 10 + (c.toNat - 48)) 0
      = ds.foldl (fun n c => n * 10 + (c.toNat - 48)) n := by
  induction f with
  | zero => intro n ds h; omega
  | succ f ih =>
    intro n ds h
    unfold Nat.toDigitsCore
    have hmod : n % 10 < 10 := Nat.mod_lt _ (by decide)
    have hv : (Nat.digitChar (n % 10)).toNat - 48 = n % 10 := by
      rw [digitChar_toNat _ hmod]; omega
    by_cases h0 : n / 10 = 0
    · have hn : n % 10 = n := by omega
      simp only [h0, if_true, List.foldl_cons, Nat.zero_mul, Nat.zero_add]
      rw [hv, hn]
    · have hlt : n / 10 < f := by omega
      simp only [h0, if_false]
      rw [ih (n / 10) _ hlt]
      simp only [List.foldl_cons, hv]
      congr 1
      omega

/-- The characters produced by `Nat.toDigitsCore` are decimal digits. -/
theorem toDigitsCore_digits (f : Nat) : ∀ (n : Nat) (ds : List Char),
    (∀ c ∈ ds, isDecimalDigit c = true) →
    ∀ c ∈ Nat.toDigitsCore 10 f n ds, isDecimalDigit c = true := by
  induction f with
  | zero => intro n ds h; simpa [Nat.toDigitsCore] using h
  | succ f ih =>
    intro n ds h
    unfold Nat.toDigitsCore
    have hmod : n % 10 < 10 := Nat.mod_lt _ (by decide)
    have hcons : ∀ c ∈ Nat.digitChar (n % 10) :: ds, isDecimalDigit c = true := by
      intro c hc
      rcases List.mem_cons.mp hc with rfl | hc
      · exact digitChar_isDecimalDigit _ hmod
      · exact h c hc
    by_cases h0 : n / 10 = 0
    · simpa only [h0, if_true] using hcons
    · simpa only [h0, if_false] using ih _ _ hcons

/-- The output of `Nat.toDigitsCore` with positive fuel is not empty. -/
theorem toDigitsCore_nonempty (f : Nat) : ∀ (n : Nat) (ds : List Char),
    Nat.toDigitsCore 10 (f + 1) n ds ≠ [] := by
  induction f with
  | zero =>
    intro n ds
    unfold Nat.toDigitsCore
    by_cases h0 : n / 10 = 0 <;> simp [h0, Nat.toDigitsCore]
  | succ f ih =>
    intro n ds
    unfold Nat.toDigitsCore
    by_cases h0 : n / 10 = 0
    · simp [h0]
    · simpa only [h0, if_false] using ih _ _

/-- The decimal digits of a number have that number as their value. -/
theorem toDigits_value (n : Nat) : digitsValue (Nat.toDigits 10 n) = n :=
  toDigitsCore_value _ _ _ (Nat.lt_succ_self n)

/-- The decimal digits of a number are decimal digits. -/
theorem toDigits_digits (n : Nat) : ∀ c ∈ Nat.toDigits 10 n, isDecimalDigit c = true :=
  toDigitsCore_digits _ _ _ (fun _ h => absurd h (List.not_mem_nil _))

/-- A number has at least one decimal digit. -/
theorem toDigits_ne_nil (n : Nat) : Nat.toDigits 10 n ≠ [] :=
  toDigitsCore_nonempty _ _ _

/-- A decimal digit may occur in a decimal literal. -/
theorem digit_decimalChar (c : Char) (h : isDecimalDigit c = true) : isDecimalChar c = true := by
  simp [isDecimalChar, h]

/-- The characters of a decimal literal. -/
theorem decimalChar_cases (c : Char) (h : isDecimalChar c = true) :
    (48 ≤ c.toNat ∧ c.toNat ≤ 57) ∨ c.toNat = 46 ∨ c.toNat = 101 ∨ c.toNat = 43 ∨
      c.toNat = 45 := by
  simp only [isDecimalChar, isDecimalDigit, Bool.or_eq_true, decide_eq_true_eq] at h
  rcases h with (((h | h) | h) | h) | h
  · exact Or.inl h
  · subst h; right; left; rfl
  · subst h; right; right; left; rfl
  · subst h; right; right; right; left; rfl
  · subst h; right; right; right; right; rfl

/-- No character of a decimal literal is white space. -/
theorem decimalChar_not_ws (c : Char) (h : isDecimalChar c = true) :
    isStrWhiteSpaceChar c = false := by
  have := decimalChar_cases c h
  simp only [isStrWhiteSpaceChar, decide_eq_false_iff_not]
  omega

/-- The code points of the decimal digits. -/
theorem digit_toNat (c : Char) (h : isDecimalDigit c = true) : 48 ≤ c.toNat ∧ c.toNat ≤ 57 := by
  simpa [isDecimalDigit] using h

/-- Stripping leaves a text without white space as it is. -/
theorem trimWhiteSpace_id (cs : List Char) (h : ∀ c ∈ cs, isStrWhiteSpaceChar c = false) :
    trimWhiteSpace cs = cs := by
  have hd : ∀ l : List Char, (∀ c ∈ l, isStrWhiteSpaceChar c = false) →
      l.dropWhile isStrWhiteSpaceChar = l := by
    intro l hl
    cases l with
    | nil => rfl
    | cons c t => simp [List.dropWhile, hl c (List.mem_cons_self _ _)]
  unfold trimWhiteSpace
  rw [hd cs h, hd cs.reverse (fun c hc => h c (List.mem_reverse.mp hc)), List.reverse_reverse]

/-- Splitting finds nothing when no character matches. -/
theorem splitAtFirst_none (p : Char → Bool) (xs : List Char)
    (h : ∀ c ∈ xs, p c = false) : splitAtFirst p xs = (xs, none) := by
  induction xs with
  | nil => rfl
  | cons c t ih =>
    have hc := h c (List.mem_cons_self _ _)
    have ht := ih (fun d hd => h d (List.mem_cons_of_mem _ hd))
    simp [splitAtFirst, hc, ht]

/-- Splitting at the first matching character. -/
theorem splitAtFirst_some (p : Char → Bool) (xs ys : List Char) (c0 : Char)
    (h : ∀ c ∈ xs, p c = false) (h0 : p c0 = true) :
    splitAtFirst p (xs ++ c0 :: ys) = (xs, some ys) := by
  induction xs with
  | nil => simp [splitAtFirst, h0]
  | cons c t ih =>
    have hc := h c (List.mem_cons_self _ _)
    have ht := ih (fun d hd => h d (List.mem_cons_of_mem _ hd))
    simp [splitAtFirst, hc, ht]

/-- The digit value of a concatenation, as a fold. -/
theorem foldl_digits_append (a b : List Char) (n : Nat) :
    (a ++ b).foldl (fun n c => n * 10 + (c.toNat - 48)) n
      = b.foldl (fun n c => n * 10 + (c.toNat - 48))
          (a.foldl (fun n c => n * 10 + (c.toNat - 48)) n) :=
  List.foldl_append _ _ _ _

/-- The digit value with a start value in front. -/
theorem foldl_digits_init (b : List Char) : ∀ n : Nat,
    b.foldl (fun n c => n * 10 + (c.toNat - 48)) n
      = n * 10 ^ b.length + b.foldl (fun n c => n * 10 + (c.toNat - 48)) 0 := by
  induction b with
  | nil => intro n; simp
  | cons c t ih =>
    intro n
    simp only [List.foldl_cons, List.length_cons]
    rw [ih (n * 10 + (c.toNat - 48)), ih (0 * 10 + (c.toNat - 48))]
    ring

/-- The digit value of a concatenation. -/
theorem digitsValue_append (a b : List Char) :
    digitsValue (a ++ b) = digitsValue a * 10 ^ b.length + digitsValue b := by
  unfold digitsValue
  rw [foldl_digits_append, foldl_digits_init]

/-- A run of zeros has the value 0. -/
theorem digitsValue_zeros (z : Nat) : digitsValue (List.replicate z '0') = 0 := by
  induction z with
  | zero => rfl
  | succ z ih =>
    have : List.replicate (z + 1) '0' = ['0'] ++ List.replicate z '0' := by
      simp [List.replicate_succ]
    have h0 : digitsValue ['0'] = 0 := by decide
    rw [this, digitsValue_append, ih, h0]
    simp

/-- A run of zeros consists of decimal digits. -/
theorem zeros_digits (z : Nat) : ∀ c ∈ List.replicate z '0', isDecimalDigit c = true := by
  intro c hc
  rw [List.eq_of_mem_replicate hc]
  rfl

/-- The exponent part with a plus sign. -/
theorem parseSignedInteger_plus (ds : List Char) (hne : ds ≠ [])
    (h : ∀ c ∈ ds, isDecimalDigit c = true) :
    parseSignedInteger ('+' :: ds) = some (digitsValue ds : Int) := by
  have hall : ds.all isDecimalDigit = true := List.all_eq_true.mpr h
  have hemp : ds.isEmpty = false := by cases ds <;> simp_all
  simp [parseSignedInteger, hall, hemp]

/-- The exponent part with a minus sign. -/
theorem parseSignedInteger_minus (ds : List Char) (hne : ds ≠ [])
    (h : ∀ c ∈ ds, isDecimalDigit c = true) :
    parseSignedInteger ('-' :: ds) = some (-(digitsValue ds : Int)) := by
  have hall : ds.all isDecimalDigit = true := List.all_eq_true.mpr h
  have hemp : ds.isEmpty = false := by cases ds <;> simp_all
  simp [parseSignedInteger, hall, hemp]

/-- A decimal digit is not an exponent indicator. -/
theorem digit_not_e (c : Char) (h : isDecimalDigit c = true) :
    (c = 'e' || c = 'E') = false := by
  have := digit_toNat c h
  rw [Bool.or_eq_false_iff]
  constructor
  · rw [decide_eq_false_iff_not]; rintro rfl; simp at this
  · rw [decide_eq_false_iff_not]; rintro rfl; simp at this

/-- A decimal digit is not a decimal point. -/
theorem digit_not_dot (c : Char) (h : isDecimalDigit c = true) :
    decide (c = '.') = false := by
  have := digit_toNat c h
  rw [decide_eq_false_iff_not]; rintro rfl; simp at this

/-- Parsing the text of a literal gives its digits and decimal exponent. -/
theorem parse_literal (ip : List Char) (fp ex : Option (List Char)) (E : Int)
    (hip : ∀ c ∈ ip, isDecimalDigit c = true)
    (hfp : ∀ c ∈ fp.getD [], isDecimalDigit c = true)
    (hne : ip ≠ [])
    (hex : ExponentIs ex E) :
    parseUnsignedDecimal (literalChars ip fp ex)
      = some (digitsValue (ip ++ fp.getD []), E - ((fp.getD []).length : Int)) := by
  have hmant : ∀ c ∈ ip ++ fractionChars fp, (c = 'e' || c = 'E') = false := by
    intro c hc
    rcases List.mem_append.mp hc with h | h
    · exact digit_not_e c (hip c h)
    · cases fp with
      | none => simp [fractionChars] at h
      | some fd =>
        rcases List.mem_cons.mp h with rfl | h
        · decide
        · exact digit_not_e c (hfp c h)
  have hsplit2 : splitAtFirst (fun c => decide (c = '.')) (ip ++ fractionChars fp) = (ip, fp) := by
    cases fp with
    | none =>
      simp only [fractionChars, List.append_nil]
      exact splitAtFirst_none _ _ (fun c hc => digit_not_dot c (hip c hc))
    | some fd =>
      exact splitAtFirst_some _ _ _ _ (fun c hc => digit_not_dot c (hip c hc)) (by decide)
  have hipall : ip.all isDecimalDigit = true := List.all_eq_true.mpr hip
  have hfpall : (fp.getD []).all isDecimalDigit = true := List.all_eq_true.mpr hfp
  have hipemp : ip.isEmpty = false := by cases ip <;> simp_all
  cases ex with
  | none =>
    have hsplit1 : splitAtFirst (fun c => c = 'e' || c = 'E') (literalChars ip fp none)
        = (ip ++ fractionChars fp, none) := by
      unfold literalChars
      simp only [exponentChars, List.append_nil]
      exact splitAtFirst_none _ _ hmant
    simp only [ExponentIs] at hex
    subst hex
    unfold parseUnsignedDecimal
    simp only [hsplit1, hsplit2, hipall, hfpall, hipemp]
    simp
  | some es =>
    have hsplit1 : splitAtFirst (fun c => c = 'e' || c = 'E') (literalChars ip fp (some es))
        = (ip ++ fractionChars fp, some es) := by
      unfold literalChars
      rw [← List.append_assoc]
      exact splitAtFirst_some _ _ _ _ hmant (by decide)
    simp only [ExponentIs] at hex
    unfold parseUnsignedDecimal
    simp only [hsplit1, hsplit2, hipall, hfpall, hipemp, hex]
    simp

/-- Every character of the text of a literal is a decimal character. -/
theorem literal_decimalChars (ip : List Char) (fp ex : Option (List Char))
    (hip : ∀ c ∈ ip, isDecimalDigit c = true)
    (hfp : ∀ c ∈ fp.getD [], isDecimalDigit c = true)
    (hex : ∀ c ∈ ex.getD [], isDecimalChar c = true) :
    ∀ c ∈ literalChars ip fp ex, isDecimalChar c = true := by
  intro c hc
  unfold literalChars at hc
  rcases List.mem_append.mp hc with h | h
  · exact digit_decimalChar c (hip c h)
  · rcases List.mem_append.mp h with h | h
    · cases fp with
      | none => simp [fractionChars] at h
      | some fd =>
        rcases List.mem_cons.mp h with rfl | h
        · decide
        · exact digit_decimalChar c (hfp c h)
    · cases ex with
      | none => simp [exponentChars] at h
      | some es =>
        rcases List.mem_cons.mp h with rfl | h
        · decide
        · exact hex c h

/-- A leading minus sign is split off. -/
theorem splitSign_minus (cs : List Char) : splitSign ('-' :: cs) = (true, cs) := rfl

/-- A text that starts with a digit has no sign. -/
theorem splitSign_digit (d : Char) (t : List Char) (h : isDecimalDigit d = true) :
    splitSign (d :: t) = (false, d :: t) := by
  have := digit_toNat d h
  unfold splitSign
  split
  · rename_i r heq
    injection heq with h1 h2
    subst h1; simp at this
  · rename_i r heq
    injection heq with h1 h2
    subst h1; simp at this
  · rfl

/-- A text that starts with a minus sign has no radix prefix. -/
theorem parseNonDecimal_minus (cs : List Char) : parseNonDecimal ('-' :: cs) = none := by
  unfold parseNonDecimal
  split
  · rename_i x ds heq
    injection heq with h1 h2
    exact absurd h1 (by decide)
  · rfl

/-- A decimal literal has no radix prefix. -/
theorem parseNonDecimal_decimal (cs : List Char) (h : ∀ c ∈ cs, isDecimalChar c = true) :
    parseNonDecimal cs = none := by
  unfold parseNonDecimal
  split
  · rename_i x ds
    have hx := decimalChar_cases x (h x (by simp))
    have h1 : decide (x = 'b') = false := by
      rw [decide_eq_false_iff_not]; rintro rfl; simp at hx
    have h2 : decide (x = 'B') = false := by
      rw [decide_eq_false_iff_not]; rintro rfl; simp at hx
    have h3 : decide (x = 'o') = false := by
      rw [decide_eq_false_iff_not]; rintro rfl; simp at hx
    have h4 : decide (x = 'O') = false := by
      rw [decide_eq_false_iff_not]; rintro rfl; simp at hx
    have h5 : decide (x = 'x') = false := by
      rw [decide_eq_false_iff_not]; rintro rfl; simp at hx
    have h6 : decide (x = 'X') = false := by
      rw [decide_eq_false_iff_not]; rintro rfl; simp at hx
    simp [h1, h2, h3, h4, h5, h6]
  · rfl

/-- `Number` of the text of a signed literal that starts with a digit. -/
theorem jsNumber_literal (cs : List Char) (s : Bool) (p : Nat × Int)
    (hchars : ∀ c ∈ cs, isDecimalChar c = true)
    (hhead : ∃ d t, cs = d :: t ∧ isDecimalDigit d = true)
    (hp : parseUnsignedDecimal cs = some p) :
    jsNumber (String.mk ((if s then ['-'] else []) ++ cs)) = decimalToNumber s p.1 p.2 := by
  obtain ⟨d, t, hcs, hd⟩ := hhead
  have hdn := digit_toNat d hd
  have hall : ∀ c ∈ (if s then ['-'] else []) ++ cs, isDecimalChar c = true := by
    intro c hc
    rcases List.mem_append.mp hc with h | h
    · cases s with
      | true =>
        simp at h
        subst h
        decide
      | false => simp at h
    · exact hchars c h
  have htrim := trimWhiteSpace_id _ (fun c hc => decimalChar_not_ws c (hall c hc))
  have hnd : parseNonDecimal ((if s then ['-'] else []) ++ cs) = none :=
    parseNonDecimal_decimal _ hall
  have hsign : splitSign ((if s then ['-'] else []) ++ cs) = (s, cs) := by
    cases s with
    | true => exact splitSign_minus cs
    | false =>
      simp only [Bool.false_eq_true, if_false, List.nil_append]
      rw [hcs]
      exact splitSign_digit d t hd
  have hinf : cs ≠ ['I', 'n', 'f', 'i', 'n', 'i', 't', 'y'] := by
    rw [hcs]
    intro h
    injection h with h1 h2
    subst h1
    simp at hdn
  have hemp : ((if s then ['-'] else []) ++ cs).isEmpty = false := by
    rw [hcs]; cases s <;> rfl
  unfold jsNumber
  simp only [htrim, hemp, hnd, hsign, hinf, hp]
  simp

/-- The text that `formatDecimal` lays out is a literal with the value of the
digits and the decimal exponent. -/
theorem format_shape (ds : List Char) (n : Int)
    (hds : ∀ c ∈ ds, isDecimalDigit c = true) (hne : ds ≠ []) :
    ∃ ip fp ex E, formatDecimal ds n = literalChars ip fp ex ∧
      (∀ c ∈ ip, isDecimalDigit c = true) ∧
      (∀ c ∈ fp.getD [], isDecimalDigit c = true) ∧ ip ≠ [] ∧
      ExponentIs ex E ∧
      (∀ c ∈ ex.getD [], isDecimalChar c = true) ∧
      decimalToNumber false (digitsValue (ip ++ fp.getD [])) (E - ((fp.getD []).length : Int))
        = decimalToNumber false (digitsValue ds) (n - (ds.length : Int)) := by
  have hlen : 0 < ds.length := List.length_pos.mpr hne
  by_cases h1 : (ds.length : Int) ≤ n ∧ n ≤ 21
  · -- plain digits followed by zeros
    refine ⟨ds ++ List.replicate (n - ds.length).toNat '0', none, none, 0, ?_, ?_, ?_, ?_,
      rfl, ?_, ?_⟩
    · simp [formatDecimal, h1, literalChars, fractionChars, exponentChars]
    · intro c hc
      rcases List.mem_append.mp hc with h | h
      · exact hds c h
      · exact zeros_digits _ c h
    · intro c hc; simp at hc
    · simp [hne]
    · intro c hc; simp at hc
    · have hz : 0 ≤ n - (ds.length : Int) := by omega
      simp only [Option.getD_none, List.append_nil, List.length_nil, Nat.cast_zero, sub_zero]
      rw [digitsValue_append, digitsValue_zeros, List.length_replicate]
      simp only [decimalToNumber, le_refl, if_true, hz]
      simp
  by_cases h2 : 0 < n ∧ n ≤ 21
  · -- a decimal point inside the digits
    have hn : (n.toNat : Int) = n := Int.toNat_of_nonneg (by omega)
    have hlt : n.toNat < ds.length := by omega
    refine ⟨ds.take n.toNat, some (ds.drop n.toNat), none, 0, ?_, ?_, ?_, ?_, rfl, ?_, ?_⟩
    · simp only [formatDecimal, if_neg h1, if_pos h2, literalChars, fractionChars,
        exponentChars, List.append_nil]
    · intro c hc; exact hds c (List.mem_of_mem_take hc)
    · intro c hc; exact hds c (List.mem_of_mem_drop hc)
    · intro h
      have h' := congrArg List.length h
      rw [List.length_take, List.length_nil] at h'
      omega
    · intro c hc; simp at hc
    · have he : (0 : Int) - (((some (ds.drop n.toNat)).getD []).length : Int)
          = n - (ds.length : Int) := by
        simp only [Option.getD_some, List.length_drop]
        omega
      rw [he]
      simp only [Option.getD_some, List.take_append_drop]
  by_cases h3 : -6 < n ∧ n ≤ 0
  · -- leading zeros after the decimal point
    have hn : ((-n).toNat : Int) = -n := Int.toNat_of_nonneg (by omega)
    refine ⟨['0'], some (List.replicate (-n).toNat '0' ++ ds), none, 0, ?_, ?_, ?_, ?_,
      rfl, ?_, ?_⟩
    · simp only [formatDecimal, if_neg h1, if_neg h2, if_pos h3, literalChars, fractionChars,
        exponentChars, List.append_nil]
      rfl
    · intro c hc
      simp at hc
      subst hc
      rfl
    · intro c hc
      rcases List.mem_append.mp hc with h | h
      · exact zeros_digits _ c h
      · exact hds c h
    · simp
    · intro c hc; simp at hc
    · have hv : digitsValue (['0'] ++ (List.replicate (-n).toNat '0' ++ ds)) = digitsValue ds := by
        rw [digitsValue_append, digitsValue_append, digitsValue_zeros]
        have h0 : digitsValue ['0'] = 0 := by decide
        rw [h0]
        simp
      have he : (0 : Int) - (((some (List.replicate (-n).toNat '0' ++ ds)).getD []).length : Int)
          = n - (ds.length : Int) := by
        simp only [Option.getD_some, List.length_append, List.length_replicate]
        push_cast
        omega
      rw [he]
      simp only [Option.getD_some]
      rw [hv]
  · -- exponent notation
    have hes : ∀ c ∈ (if n - 1 < 0 then '-' else '+') :: Nat.toDigits 10 (n - 1).natAbs,
        isDecimalChar c = true := by
      intro c hc
      rcases List.mem_cons.mp hc with rfl | h
      · split_ifs <;> decide
      · exact digit_decimalChar c (toDigits_digits _ c h)
    have hE : parseSignedInteger
        ((if n - 1 < 0 then '-' else '+') :: Nat.toDigits 10 (n - 1).natAbs) = some (n - 1) := by
      by_cases hneg : n - 1 < 0
      · rw [if_pos hneg, parseSignedInteger_minus _ (toDigits_ne_nil _) (toDigits_digits _),
          toDigits_value]
        congr 1
        omega
      · rw [if_neg hneg, parseSignedInteger_plus _ (toDigits_ne_nil _) (toDigits_digits _),
          toDigits_value]
        congr 1
        omega
    cases ds with
    | nil => exact absurd rfl hne
    | cons d rest =>
      cases rest with
      | nil =>
        refine ⟨[d], none,
          some ((if n - 1 < 0 then '-' else '+') :: Nat.toDigits 10 (n - 1).natAbs), n - 1,
          ?_, hds, ?_, ?_, hE, hes, ?_⟩
        · simp only [formatDecimal, if_neg h1, if_neg h2, if_neg h3, literalChars,
            fractionChars, exponentChars]
          rfl
        · intro c hc; simp at hc
        · simp
        · simp
      | cons d2 rest2 =>
        refine ⟨[d], some (d2 :: rest2),
          some ((if n - 1 < 0 then '-' else '+') :: Nat.toDigits 10 (n - 1).natAbs), n - 1,
          ?_, ?_, ?_, ?_, hE, hes, ?_⟩
        · simp only [formatDecimal, if_neg h1, if_neg h2, if_neg h3, literalChars,
            fractionChars, exponentChars]
          rfl
        · intro c hc
          simp at hc
          subst hc
          exact hds _ (List.mem_cons_self _ _)
        · intro c hc
          exact hds c (List.mem_cons_of_mem _ hc)
        · simp
        · have he : n - 1 - (((some (d2 :: rest2)).getD []).length : Int)
              = n - ((d :: d2 :: rest2).length : Int) := by
            simp only [Option.getD_some, List.length_cons]
            push_cast
            omega
          rw [he]
          simp only [Option.getD_some, List.singleton_append]

/-! ### The round trip through `String` and `Number` -/

/-- The bounds of a binary64 pair other than zero. -/
theorem representable_pos (m : Nat) (e : Int) (h : Representable m e) (hm : m ≠ 0) :
    m % 2 = 1 ∧ m < 2 ^ 53 ∧ -1074 ≤ e ∧ pairVal m e < 2 ^ 1024 := by
  rcases h with ⟨h1, -⟩ | ⟨h1, h2, h3, h4⟩
  · exact absurd h1 hm
  · refine ⟨h1, h2, h3, lt_of_le_of_lt h4 ?_⟩
    norm_num

/-- The sign is carried through the conversion of a decimal literal. -/
theorem decimalToNumber_sign (s : Bool) (S : Nat) (E : Int) (m : Nat) (e : Int)
    (h : decimalToNumber false S E = JSNumber.finite false m e) :
    decimalToNumber s S E = JSNumber.finite s m e := by
  unfold decimalToNumber toNumber at *
  split_ifs at h ⊢ with h0
  · cases hr : round64 (S * 10 ^ E.toNat) 1 with
    | none => rw [hr] at h; simp at h
    | some p =>
      rw [hr] at h
      simp only [JSNumber.finite.injEq, true_and] at h
      simp [h.1, h.2]
  · cases hr : round64 S (10 ^ (-E).toNat) with
    | none => rw [hr] at h; simp at h
    | some p =>
      rw [hr] at h
      simp only [JSNumber.finite.injEq, true_and] at h
      simp [h.1, h.2]

/-- The exact decimal expansion rounds to the value itself. -/
theorem exactDecimal_spec (m : Nat) (e : Int) (hrep : Representable m e) (hm : m ≠ 0) :
    (exactDecimal m e).digits ≠ 0 ∧
    (exactDecimal m e).toNumber = JSNumber.finite false m e := by
  obtain ⟨hodd, hlt, hge, hmax⟩ := representable_pos m e hrep hm
  have hmpos : 1 ≤ m := by omega
  unfold exactDecimal
  by_cases he : 0 ≤ e
  · simp only [he, if_true]
    have hN : 1 ≤ m * 2 ^ e.toNat := Nat.mul_pos hmpos (by positivity)
    refine ⟨by omega, ?_⟩
    have hr := round64_exact (m * 2 ^ e.toNat) 1 m e hN
      le_rfl hodd hlt hge hmax (by
        rw [← nat_zpow_eq m e he]
        simp)
    simp [Decimal.toNumber, decimalToNumber, toNumber, hr]
  · simp only [he, if_false]
    have hk : ((-e).toNat : ℤ) = -e := Int.toNat_of_nonneg (by omega)
    have hN : 1 ≤ m * 5 ^ (-e).toNat := Nat.mul_pos hmpos (by positivity)
    refine ⟨by omega, ?_⟩
    have hr := round64_exact (m * 5 ^ (-e).toNat) (10 ^ (-e).toNat) m e hN
      (Nat.one_le_pow _ _ (by norm_num)) hodd hlt hge hmax (by
        have e2 : (2 : ℚ) ^ e = ((2 : ℚ) ^ (-e).toNat)⁻¹ := by
          rw [← zpow_natCast, hk, zpow_neg, inv_inv]
        unfold pairVal
        rw [e2]
        push_cast
        have h10 : (10 : ℚ) ^ (-e).toNat = 2 ^ (-e).toNat * 5 ^ (-e).toNat := by
          rw [← mul_pow]; norm_num
        rw [h10]
        field_simp
        ring)
    simp [Decimal.toNumber, decimalToNumber, toNumber, hr, he]

/-- The decimal chosen for a value rounds to that value. -/
theorem shortestDecimal_spec (m : Nat) (e : Int) (hrep : Representable m e) (hm : m ≠ 0) :
    (shortestDecimal m e).digits ≠ 0 ∧
    (shortestDecimal m e).toNumber = JSNumber.finite false m e := by
  unfold shortestDecimal
  simp only
  split
  · rename_i c hfind
    have := List.find?_some hfind
    simpa using this
  · exact exactDecimal_spec m e hrep hm

/-- A decimal literal with an integer part starts with a digit. -/
theorem literal_head (ip : List Char) (fp ex : Option (List Char)) (hne : ip ≠ [])
    (hip : ∀ c ∈ ip, isDecimalDigit c = true) :
    ∃ d t, literalChars ip fp ex = d :: t ∧ isDecimalDigit d = true := by
  cases ip with
  | nil => exact absurd rfl hne
  | cons d t => exact ⟨d, _, rfl, hip d (List.mem_cons_self _ _)⟩

/-- `Number` reads the text of a positive value back. -/
theorem magnitude_roundtrip (s : Bool) (m : Nat) (e : Int) (hrep : Representable m e)
    (hm : m ≠ 0) :
    jsNumber (String.mk ((if s then ['-'] else []) ++ magnitudeToString m e))
      = JSNumber.finite s m e := by
  obtain ⟨hodd, hlt, hge, hmax⟩ := representable_pos m e hrep hm
  have hmpos : 1 ≤ m := by omega
  unfold magnitudeToString
  by_cases hsafe : 0 ≤ e ∧ m * 2 ^ e.toNat < 2 ^ 53
  · rw [if_pos hsafe]
    have hshape : Nat.toDigits 10 (m * 2 ^ e.toNat)
        = literalChars (Nat.toDigits 10 (m * 2 ^ e.toNat)) none none := by
      simp [literalChars, fractionChars, exponentChars]
    have hparse := parse_literal (Nat.toDigits 10 (m * 2 ^ e.toNat)) none none 0
      (toDigits_digits _) (by intro c hc; simp at hc) (toDigits_ne_nil _) rfl
    rw [← hshape] at hparse
    have hchars : ∀ c ∈ Nat.toDigits 10 (m * 2 ^ e.toNat), isDecimalChar c = true :=
      fun c hc => digit_decimalChar c (toDigits_digits _ c hc)
    have hhead := literal_head (Nat.toDigits 10 (m * 2 ^ e.toNat)) none none
      (toDigits_ne_nil _) (toDigits_digits _)
    rw [← hshape] at hhead
    rw [jsNumber_literal _ s _ hchars hhead hparse]
    apply decimalToNumber_sign
    have hN : 1 ≤ m * 2 ^ e.toNat := Nat.mul_pos hmpos (by positivity)
    have hr := round64_exact (m * 2 ^ e.toNat) 1 m e hN
      le_rfl hodd hlt hge hmax (by
        rw [← nat_zpow_eq m e hsafe.1]
        simp)
    simp [decimalToNumber, toNumber, hr, toDigits_value]
  · rw [if_neg hsafe]
    obtain ⟨hd0, hnum⟩ := shortestDecimal_spec m e hrep hm
    obtain ⟨ip, fp, ex, E, hfmt, hip, hfp, hipne, hex, hexc, hval⟩ :=
      format_shape (Nat.toDigits 10 (shortestDecimal m e).digits)
        ((shortestDecimal m e).exp10 + (Nat.toDigits 10 (shortestDecimal m e).digits).length)
        (toDigits_digits _) (toDigits_ne_nil _)
    have hparse := parse_literal ip fp ex E hip hfp hipne hex
    have hchars := literal_decimalChars ip fp ex hip hfp hexc
    have hhead := literal_head ip fp ex hipne hip
    rw [hfmt, jsNumber_literal _ s _ hchars hhead hparse]
    apply decimalToNumber_sign
    rw [hval, toDigits_value, add_sub_cancel_right]
    exact hnum

/-- `Number(String(x))` is `x` for every finite Number other than negative
zero. -/
theorem jsNumber_jsString (s : Bool) (m : Nat) (e : Int) (hrep : Representable m e)
    (hz : m = 0 → s = false) :
    jsNumber (jsString (JSNumber.finite s m e)) = JSNumber.finite s m e := by
  by_cases hm : m = 0
  · have hs := hz hm
    have he : e = 0 := by
      rcases hrep with ⟨-, h⟩ | ⟨h, -⟩
      · exact h
      · omega
    subst hm; subst hs; subst he
    decide
  · simp only [jsString, hm, if_false]
    exact magnitude_roundtrip s m e hrep hm

/-! ### Stored numbers -/

/-- The value of a decimal literal is a binary64 value. -/
theorem decimalToNumber_wellFormed (s : Bool) (S : Nat) (E : Int) :
    (decimalToNumber s S E).WellFormed := by
  unfold decimalToNumber
  split_ifs
  · exact toNumber_wellFormed _ _ _ le_rfl
  · exact toNumber_wellFormed _ _ _ (Nat.one_le_pow _ _ (by norm_num))

/-- Every Number that `Number(raw)` yields is a binary64 value. -/
theorem jsNumber_wellFormed (raw : String) : (jsNumber raw).WellFormed := by
  unfold jsNumber
  simp only
  repeat' split
  all_goals
    first
    | exact Or.inl ⟨rfl, rfl⟩
    | exact toNumber_wellFormed _ _ _ le_rfl
    | exact decimalToNumber_wellFormed _ _ _
    | trivial

/-- A finite binary64 value other than negative zero: the Numbers that
`String` and `Number` carry back and forth without change. -/
theorem jsNumber_jsString_of (x : JSNumber) (s : Bool) (m : Nat) (e : Int)
    (hx : x = JSNumber.finite s m e) (hrep : Representable m e) (hz : m = 0 → s = false) :
    jsNumber (jsString x) = x := by
  rw [hx]
  exact jsNumber_jsString s m e hrep hz

/-- The text of a finite Number is not empty, hence truthy. -/
theorem falsy_jsString (s : Bool) (m : Nat) (e : Int) (hrep : Representable m e)
    (hz : m = 0 → s = false) : falsy (some (jsString (JSNumber.finite s m e))) = false := by
  have hrt := jsNumber_jsString s m e hrep hz
  cases hd : (jsString (JSNumber.finite s m e)).data with
  | nil =>
    have hemp : jsString (JSNumber.finite s m e) = "" := String.ext hd
    rw [hemp] at hrt
    have h0 : jsNumber "" = JSNumber.finite false 0 0 := by decide
    rw [h0] at hrt
    injection hrt with h1 h2 h3
    have hm : m = 0 := h2.symm
    subst hm
    simp [jsString] at hemp
  | cons c cs => simp [falsy, hd]

/-- Reading a key that holds `String(x)` gives `x`, whatever the default. -/
theorem readNum_jsString (ls : Store) (key : String) (dflt : JSNumber) (s : Bool) (m : Nat)
    (e : Int) (hrep : Representable m e) (hz : m = 0 → s = false)
    (h : getItem ls key = some (jsString (JSNumber.finite s m e))) :
    readNum ls key dflt = JSNumber.finite s m e := by
  simp [readNum, h, falsy_jsString s m e hrep hz, jsNumber_jsString s m e hrep hz,
    JSNumber.isFinite]

/-- What `readNum` returns is finite and a binary64 value when its default is. -/
theorem readNum_finite (ls : Store) (key : String) (dflt : JSNumber)
    (hf : dflt.isFinite = true) (hw : dflt.WellFormed) :
    ∃ s m e, readNum ls key dflt = JSNumber.finite s m e ∧ Representable m e := by
  have hk : (readNum ls key dflt).isFinite = true ∧ (readNum ls key dflt).WellFormed := by
    unfold readNum
    simp only
    split_ifs with h1 h2
    · exact ⟨hf, hw⟩
    · exact ⟨h2, jsNumber_wellFormed _⟩
    · exact ⟨hf, hw⟩
  cases hr : readNum ls key dflt with
  | nan => rw [hr] at hk; simp [JSNumber.isFinite] at hk
  | infinity s => rw [hr] at hk; simp [JSNumber.isFinite] at hk
  | finite s m e =>
    rw [hr] at hk
    exact ⟨s, m, e, rfl, hk.2⟩

/-- The literals 0 and 1 are finite binary64 values. -/
theorem ofNat_zero_one :
    JSNumber.ofNat 0 = JSNumber.finite false 0 0 ∧ JSNumber.ofNat 1 = JSNumber.finite false 1 0 := by
  decide

/-- The characters of `String(n)` for a natural number. -/
theorem numToString_data (n : Nat) : (numToString n).data = Nat.toDigits 10 n := rfl

/-- `String` of the Number of a natural number below `2 ^ 53` is its decimal
string. -/
theorem jsString_ofNat (N : Nat) (h : N < 2 ^ 53) :
    jsString (JSNumber.ofNat N) = numToString N := by
  rcases Nat.eq_zero_or_pos N with h0 | h0
  · subst h0
    decide
  · obtain ⟨m, j, hof, hv, hrep⟩ := ofNat_finite N h0 (le_of_lt h)
    have ht := ofNat_toNat N (le_of_lt h)
    rw [hof] at ht ⊢
    have hm : m ≠ 0 := by
      rintro rfl
      have hq : (N : ℚ) = 0 := by simpa [pairVal] using hv.symm
      have hN0 : N = 0 := by exact_mod_cast hq
      omega
    obtain ⟨hodd, -, -, -⟩ := representable_pos m j hrep hm
    have hj : 0 ≤ j := by
      by_contra hneg
      simp only [JSNumber.toNat?, hneg, if_false] at ht
      have hk : 1 ≤ (-j).toNat := by omega
      have hdiv : 2 ∣ 2 ^ (-j).toNat := dvd_pow_self 2 (by omega)
      split_ifs at ht with hmod
      have : 2 ∣ m := Nat.dvd_trans hdiv (Nat.dvd_of_mod_eq_zero hmod)
      omega
    have hN : m * 2 ^ j.toNat = N := by
      simp only [JSNumber.toNat?, hj, if_true] at ht
      exact Option.some.inj ht
    have hsafe : 0 ≤ j ∧ N < 2 ^ 53 := ⟨hj, h⟩
    apply String.ext
    simp only [jsString, hm, if_false, magnitudeToString, hN, if_pos hsafe, numToString_data]
    simp

/-- Reading a key right after writing it. -/
theorem getItem_setItem_same (ls : Store) (key value : String) :
    getItem (setItem ls key value) key = some value := by
  simp [getItem, setItem]

/-- Writing a key leaves the other keys as they were. -/
theorem getItem_setItem_ne (ls : Store) (key value k : String) (h : k ≠ key) :
    getItem (setItem ls key value) k = getItem ls k := by
  simp [getItem, setItem, h]

/-! ### Day strings -/

/-- `String(n)` is injective on natural numbers. -/
theorem numToString_injective {a b : Nat} (h : numToString a = numToString b) : a = b := by
  have ha := toDigits_value a
  rw [← numToString_data, h, numToString_data, toDigits_value] at ha
  exact ha.symm

/-- The decimal string of a natural number does not start with a minus sign. -/
theorem numToString_ne_minus (m : Nat) (t : String) : numToString m ≠ "-" ++ t := by
  intro h
  have hd : (numToString m).data = '-' :: t.data := by rw [h]; rfl
  rw [numToString_data] at hd
  have := toDigits_digits m '-' (by rw [hd]; exact List.mem_cons_self _ _)
  exact absurd this (by decide)

/-- The decimal string of an integer determines it. -/
theorem intToString_injective {a b : Int} (h : toString a = toString b) : a = b := by
  cases a with
  | ofNat m =>
    cases b with
    | ofNat n =>
      have : numToString m = numToString n := h
      rw [numToString_injective this]
    | negSucc n =>
      have h1 : numToString m = "-" ++ numToString (n + 1) := h
      exact absurd h1 (numToString_ne_minus m _)
  | negSucc m =>
    cases b with
    | ofNat n =>
      have h1 : "-" ++ numToString (m + 1) = numToString n := h
      exact absurd h1.symm (numToString_ne_minus n _)
    | negSucc n =>
      have h1 : "-" ++ numToString (m + 1) = "-" ++ numToString (n + 1) := h
      have h2 : ("-" ++ numToString (m + 1)).data = ("-" ++ numToString (n + 1)).data := by
        rw [h1]
      simp only [String.data_append, List.append_cancel_left_eq] at h2
      have h3 : numToString (m + 1) = numToString (n + 1) := String.ext h2
      have := numToString_injective h3
      have hmn : m = n := by omega
      rw [hmn]

/-- Two-character width of a padded day or month number. -/
theorem padStart2_length (n : Nat) (h : n ≤ 31) :
    (padStart2 (numToString n)).data.length = 2 := by
  interval_cases n <;> rfl

/-- A padded day or month number reads back as the number. -/
theorem digitsValue_padStart2 (n : Nat) (h : n ≤ 31) :
    digitsValue (padStart2 (numToString n)).data = n := by
  interval_cases n <;> rfl

/-- Padding is injective on day and month numbers. -/
theorem padStart2_injective {a b : Nat} (ha : a ≤ 31) (hb : b ≤ 31)
    (h : padStart2 (numToString a) = padStart2 (numToString b)) : a = b := by
  have := digitsValue_padStart2 a ha
  rw [h, digitsValue_padStart2 b hb] at this
  exact this.symm

/-- The characters of a day string. -/
theorem dayStr_data (d : JSDate) :
    (dayStr d).data = (toString d.fullYear).data ++
      ('-' :: ((padStart2 (numToString (d.month + 1))).data ++
        ('-' :: (padStart2 (numToString d.date)).data))) := by
  simp [dayStr, String.data_append]

/-- A day string is not empty, hence truthy. -/
theorem falsy_dayStr (d : JSDate) : falsy (some (dayStr d)) = false := by
  simp only [falsy, dayStr_data]
  cases (toString d.fullYear).data <;> rfl

/-- The number of days of a month is between 28 and 31. -/
theorem daysInMonth_bounds (y : Int) (m : Nat) :
    28 ≤ daysInMonth y m ∧ daysInMonth y m ≤ 31 := by
  unfold daysInMonth
  split_ifs <;> omega

/-- Day strings of valid dates determine the date. -/
theorem dayStr_injective {d e : JSDate} (hd : d.Valid) (he : e.Valid)
    (h : dayStr d = dayStr e) : d = e := by
  obtain ⟨hdm, hd1, hd2⟩ := hd
  obtain ⟨hem, he1, he2⟩ := he
  have hdb := (daysInMonth_bounds d.fullYear d.month).2
  have heb := (daysInMonth_bounds e.fullYear e.month).2
  have hdata : (dayStr d).data = (dayStr e).data := by rw [h]
  rw [dayStr_data, dayStr_data] at hdata
  have hMd := padStart2_length (d.month + 1) (by omega)
  have hMe := padStart2_length (e.month + 1) (by omega)
  have hDd := padStart2_length d.date (by omega)
  have hDe := padStart2_length e.date (by omega)
  obtain ⟨hY, hrest⟩ := List.append_inj' hdata (by simp [hMd, hMe, hDd, hDe])
  have hrest2 := (List.cons.inj hrest).2
  obtain ⟨hM, hrest3⟩ := List.append_inj hrest2 (by rw [hMd, hMe])
  have hD := (List.cons.inj hrest3).2
  have hy : d.fullYear = e.fullYear := intToString_injective (String.ext hY)
  have hm : d.month + 1 = e.month + 1 :=
    padStart2_injective (by omega) (by omega) (String.ext hM)
  have hdt : d.date = e.date := padStart2_injective (by omega) (by omega) (String.ext hD)
  cases d; cases e
  simp only [JSDate.mk.injEq]
  simp only at hy hm hdt
  exact ⟨hy, by omega, hdt⟩

/-! ### Streak -/

/-- The literal 1 as a binary64 value, and its text. -/
theorem ofNat_one_spec :
    JSNumber.ofNat 1 = JSNumber.finite false 1 0 ∧ Representable 1 0 ∧
      jsString (JSNumber.ofNat 1) = "1" := by
  have h1 : JSNumber.ofNat 1 = JSNumber.finite false 1 0 := by decide
  have hw := toNumber_wellFormed false 1 1 le_rfl
  have h3 : jsString (JSNumber.ofNat 1) = "1" := by decide
  refine ⟨h1, ?_, h3⟩
  have : (JSNumber.ofNat 1).WellFormed := hw
  rw [h1] at this
  exact this

/-- The store after writing the streak and then the last active day. -/
theorem getItem_after_write (ls : Store) (v t : String) :
    getItem (setItem (setItem ls LS.STREAK v) LS.LAST_DAY t) LS.STREAK = some v ∧
    getItem (setItem (setItem ls LS.STREAK v) LS.LAST_DAY t) LS.LAST_DAY = some t := by
  refine ⟨?_, getItem_setItem_same _ _ _⟩
  rw [getItem_setItem_ne _ _ _ _ (by decide)]
  exact getItem_setItem_same _ _ _

/-- First branch: no last active day is stored. -/
theorem updateStreak_noLast (ls : Store) (now y : JSDate)
    (h : getItem ls LS.LAST_DAY = none) :
    updateStreakOnSessionStart ls now y
      = (setItem (setItem ls LS.STREAK "1") LS.LAST_DAY (todayStr now), JSNumber.ofNat 1) := by
  simp [updateStreakOnSessionStart, h, falsy]

/-- Second branch: the last active day is today. -/
theorem updateStreak_sameDay (ls : Store) (now y : JSDate)
    (h : getItem ls LS.LAST_DAY = some (todayStr now)) :
    updateStreakOnSessionStart ls now y = (ls, readNum ls LS.STREAK (JSNumber.ofNat 1)) := by
  have hf : falsy (some (todayStr now)) = false := falsy_dayStr now
  simp [updateStreakOnSessionStart, h, hf]

/-- Third branch: the last active day is the day shown by `y`. -/
theorem updateStreak_yesterday (ls : Store) (now y : JSDate)
    (hne : dayStr y ≠ todayStr now)
    (h : getItem ls LS.LAST_DAY = some (dayStr y)) :
    updateStreakOnSessionStart ls now y
      = (setItem (setItem ls LS.STREAK
            (jsString ((readNum ls LS.STREAK (JSNumber.ofNat 0)).add (JSNumber.ofNat 1))))
          LS.LAST_DAY (todayStr now),
          (readNum ls LS.STREAK (JSNumber.ofNat 0)).add (JSNumber.ofNat 1)) := by
  have hf : falsy (some (dayStr y)) = false := falsy_dayStr _
  simp [updateStreakOnSessionStart, h, hf, hne]

/-- Last branch: the last active day is neither today nor the day shown by `y`. -/
theorem updateStreak_other (ls : Store) (now y : JSDate) (l : String)
    (h : getItem ls LS.LAST_DAY = some l) (h1 : l ≠ todayStr now)
    (h2 : l ≠ dayStr y) :
    updateStreakOnSessionStart ls now y
      = (setItem (setItem ls LS.STREAK "1") LS.LAST_DAY (todayStr now), JSNumber.ofNat 1) := by
  by_cases hf : falsy (some l) = true
  · simp [updateStreakOnSessionStart, h, hf]
  · simp [updateStreakOnSessionStart, h, hf, h1, h2]

/-- The streak read with default 0 and incremented is a finite binary64 value
other than negative zero. -/
theorem streak_next_finite (ls : Store) :
    ∃ r m e, (readNum ls LS.STREAK (JSNumber.ofNat 0)).add (JSNumber.ofNat 1)
        = JSNumber.finite r m e ∧ Representable m e ∧ (m = 0 → r = false) := by
  obtain ⟨s, m, e, hr, hrep⟩ := readNum_finite ls LS.STREAK (JSNumber.ofNat 0)
    (by decide) (toNumber_wellFormed false 0 1 le_rfl)
  rw [hr]
  exact add_ofNat_finite s m e 1 hrep le_rfl (by norm_num)

/-- After a call that is not a same-day repeat, the store holds the text of
the returned streak, which reads back as the returned streak, and today as the
last active day. -/
theorem updateStreak_store (ls : Store) (now y : JSDate)
    (h : getItem ls LS.LAST_DAY ≠ some (todayStr now)) :
    getItem (updateStreakOnSessionStart ls now y).1 LS.STREAK
      = some (jsString (updateStreakOnSessionStart ls now y).2) ∧
    (∀ dflt : JSNumber, readNum (updateStreakOnSessionStart ls now y).1 LS.STREAK dflt
      = (updateStreakOnSessionStart ls now y).2) ∧
    getItem (updateStreakOnSessionStart ls now y).1 LS.LAST_DAY = some (todayStr now) := by
  obtain ⟨hone, hrep1, hstr1⟩ := ofNat_one_spec
  have hwrite1 :
      getItem (setItem (setItem ls LS.STREAK "1") LS.LAST_DAY (todayStr now)) LS.STREAK
        = some (jsString (JSNumber.ofNat 1)) ∧
      (∀ dflt : JSNumber,
        readNum (setItem (setItem ls LS.STREAK "1") LS.LAST_DAY (todayStr now)) LS.STREAK dflt
          = JSNumber.ofNat 1) ∧
      getItem (setItem (setItem ls LS.STREAK "1") LS.LAST_DAY (todayStr now)) LS.LAST_DAY
        = some (todayStr now) := by
    obtain ⟨ha, hb⟩ := getItem_after_write ls "1" (todayStr now)
    have ha2 : getItem (setItem (setItem ls LS.STREAK "1") LS.LAST_DAY (todayStr now))
        LS.STREAK = some (jsString (JSNumber.finite false 1 0)) := by
      rw [← hone, hstr1]; exact ha
    refine ⟨by rw [hstr1]; exact ha, fun dflt => ?_, hb⟩
    rw [hone]
    exact readNum_jsString _ _ dflt false 1 0 hrep1 (by norm_num) ha2
  cases hl : getItem ls LS.LAST_DAY with
  | none =>
    rw [updateStreak_noLast ls now y hl]
    exact hwrite1
  | some l =>
    have h1 : l ≠ todayStr now := fun e => h (by rw [hl, e])
    by_cases h2 : l = dayStr y
    · rw [updateStreak_yesterday ls now y (fun e => h1 (by rw [h2, e])) (by rw [hl, h2])]
      obtain ⟨r, m, e, hnext, hrep, hz⟩ := streak_next_finite ls
      obtain ⟨ha, hb⟩ := getItem_after_write ls
        (jsString ((readNum ls LS.STREAK (JSNumber.ofNat 0)).add (JSNumber.ofNat 1)))
        (todayStr now)
      refine ⟨ha, fun dflt => ?_, hb⟩
      simp only
      rw [hnext] at ha ⊢
      exact readNum_jsString _ _ dflt r m e hrep hz ha
    · rw [updateStreak_other ls now y l hl h1 h2]
      exact hwrite1

/-! ### Session -/

/-- Position never exceeds the queue length in a reachable state. -/
theorem reachable_idx_le (b : List Question) (s : App) (h : Reachable b s) :
    s.idx ≤ s.queue.length := by
  induction h with
  | init ls => simp [App.init]
  | effect s now y _ ih => simpa [App.mountEffect] using ih
  | mode s m _ ih => simpa [App.setMode] using ih
  | result s ok _ ih =>
    cases ok <;> simp [handleResult, handleResultFrom]

/-- The counters determine position and queue length while `handleResult` is
only called in progress. -/
theorem inProgress_counts (b : List Question) (s : App) (h : ReachableInProgress b s) :
    s.idx = s.correctCount + s.incorrectCount ∧
    s.queue.length = b.length + s.incorrectCount := by
  induction h with
  | init ls => simp [App.init]
  | effect s now y _ ih => simpa [App.mountEffect] using ih
  | mode s m _ ih => simpa [App.setMode] using ih
  | result s ok _ hlt ih =>
    have hmin : min (s.idx + 1) s.queue.length = s.idx + 1 := by omega
    cases ok <;> simp [handleResult, handleResultFrom, hmin] <;> omega

/-- Position never exceeds the queue length, in-progress variant. -/
theorem reachableInProgress_idx_le (b : List Question) (s : App)
    (h : ReachableInProgress b s) : s.idx ≤ s.queue.length := by
  induction h with
  | init ls => simp [App.init]
  | effect s now y _ ih => simpa [App.mountEffect] using ih
  | mode s m _ ih => simpa [App.setMode] using ih
  | result s ok _ hlt ih =>
    cases ok <;> simp [handleResult, handleResultFrom]

/-- A miss appends the entry at the current position. -/
theorem handleResult_queue_aux (s : App) (h : s.idx < s.queue.length) :
    (handleResult s false).queue = s.queue ++ [s.queue.get ⟨s.idx, h⟩] := by
  simp [handleResult, handleResultFrom, List.getD_eq_getElem?_getD, List.getElem?_eq_getElem h]

/-! ### The summary percentage -/

/-- Rounding to binary64 has relative error at most `2 ^ (-53)`. -/
theorem fl_spec (n d : Nat) (hn : 1 ≤ n) (hd : 1 ≤ d) :
    |(fl n d).val - (n : ℚ) / d| ≤ (n : ℚ) / d / 2 ^ 53 := by
  obtain ⟨hlo, -⟩ := floorLog2_spec n d hn hd
  have hdq : (0 : ℚ) < d := by exact_mod_cast hd
  have h2 : (2 : ℚ) ≠ 0 := by norm_num
  have hn0 : n ≠ 0 := by omega
  have hP : (0 : ℚ) < 2 ^ (floorLog2 n d - 52) := by positivity
  have hbound : (2 : ℚ) ^ (floorLog2 n d - 52) / 2 ≤ (n : ℚ) / d / 2 ^ 53 := by
    rw [zpow_sub₀ h2]
    have : ((2 : ℚ) ^ (52 : ℤ)) = 2 ^ 52 := by norm_num
    rw [this, div_div, div_le_div_iff₀ (by positivity) (by positivity)]
    have h53 : (2 : ℚ) ^ 53 = 2 ^ 52 * 2 := by norm_num
    rw [h53]
    nlinarith
  refine le_trans ?_ hbound
  unfold fl
  simp only [hn0, if_false]
  by_cases he : 0 ≤ floorLog2 n d - 52
  · simp only [he, if_true, Binary64.val]
    apply scaled_abs _ _ _ hP
    have hk : ((floorLog2 n d - 52).toNat : ℤ) = floorLog2 n d - 52 := Int.toNat_of_nonneg he
    have hD : 1 ≤ d * 2 ^ (floorLog2 n d - 52).toNat :=
      Nat.mul_pos hd (by positivity)
    have := divNearestEven_spec n (d * 2 ^ (floorLog2 n d - 52).toNat) hD
    have e : (n : ℚ) / d / 2 ^ (floorLog2 n d - 52)
        = (n : ℚ) / ((d * 2 ^ (floorLog2 n d - 52).toNat : ℕ) : ℚ) := by
      rw [← hk, zpow_natCast, div_div]
      push_cast
      rw [hk]
    rw [e]
    exact this
  · simp only [he, if_false, Binary64.val]
    apply scaled_abs _ _ _ hP
    have hk : ((-(floorLog2 n d - 52)).toNat : ℤ) = -(floorLog2 n d - 52) :=
      Int.toNat_of_nonneg (by omega)
    have := divNearestEven_spec (n * 2 ^ (-(floorLog2 n d - 52)).toNat) d hd
    have e : (n : ℚ) / d / 2 ^ (floorLog2 n d - 52)
        = ((n * 2 ^ (-(floorLog2 n d - 52)).toNat : ℕ) : ℚ) / d := by
      have e2 : (2 : ℚ) ^ (floorLog2 n d - 52)
          = ((2 : ℚ) ^ (-(floorLog2 n d - 52)).toNat)⁻¹ := by
        rw [← zpow_natCast, hk, zpow_neg, inv_inv]
      rw [e2]
      push_cast
      field_simp
    rw [e]
    exact this

/-- The binary64 value of a positive quotient is positive. -/
theorem fl_val_pos (n d : Nat) (hn : 1 ≤ n) (hd : 1 ≤ d) : 0 < (fl n d).val := by
  have h := fl_spec n d hn hd
  have hq : (0 : ℚ) < (n : ℚ) / d := by
    have : (0 : ℚ) < n := by exact_mod_cast hn
    have : (0 : ℚ) < d := by exact_mod_cast hd
    positivity
  have h1 := (abs_le.mp h).1
  have h2 : (n : ℚ) / d / 2 ^ 53 ≤ (n : ℚ) / d / 2 := by
    apply div_le_div_of_nonneg_left (le_of_lt hq) (by norm_num) (by norm_num)
  linarith

/-- The product with a positive integer has relative error at most `2 ^ (-53)`. -/
theorem jsMul_spec (x : Binary64) (k : Nat) (hx : 0 < x.val) (hk : 1 ≤ k) :
    |(jsMul x k).val - x.val * k| ≤ x.val * k / 2 ^ 53 := by
  have hm : 1 ≤ x.mant := by
    rcases Nat.eq_zero_or_pos x.mant with h | h
    · simp [Binary64.val, h] at hx
    · exact h
  unfold jsMul
  by_cases he : 0 ≤ x.exp
  · simp only [he, if_true]
    have hj : (x.exp.toNat : ℤ) = x.exp := Int.toNat_of_nonneg he
    have hN : 1 ≤ x.mant * k * 2 ^ x.exp.toNat :=
      Nat.mul_pos (Nat.mul_pos hm hk) (by positivity)
    have := fl_spec (x.mant * k * 2 ^ x.exp.toNat) 1 hN le_rfl
    have e : ((x.mant * k * 2 ^ x.exp.toNat : ℕ) : ℚ) / (1 : ℕ) = x.val * k := by
      unfold Binary64.val
      rw [← hj, zpow_natCast]
      push_cast
      rw [hj]
      ring
    rw [e] at this
    exact this
  · simp only [he, if_false]
    have hj : ((-x.exp).toNat : ℤ) = -x.exp := Int.toNat_of_nonneg (by omega)
    have hN : 1 ≤ x.mant * k := Nat.mul_pos hm hk
    have hD : 1 ≤ 2 ^ (-x.exp).toNat := Nat.one_le_two_pow
    have := fl_spec (x.mant * k) (2 ^ (-x.exp).toNat) hN hD
    have e : ((x.mant * k : ℕ) : ℚ) / ((2 ^ (-x.exp).toNat : ℕ) : ℚ) = x.val * k := by
      unfold Binary64.val
      have e2 : (2 : ℚ) ^ x.exp = ((2 : ℚ) ^ (-x.exp).toNat)⁻¹ := by
        rw [← zpow_natCast, hj, zpow_neg, inv_inv]
      rw [e2]
      push_cast
      field_simp
    rw [e] at this
    exact this

/-- `Math.round` returns `K` when the value plus one half lies in `[K, K + 1)`. -/
theorem mathRound_spec (x : Binary64) (K : Nat) (h1 : (K : ℚ) ≤ x.val + 1 / 2)
    (h2 : x.val + 1 / 2 < K + 1) : mathRound x = K := by
  unfold mathRound
  by_cases he : 0 ≤ x.exp
  · simp only [he, if_true]
    have hj : (x.exp.toNat : ℤ) = x.exp := Int.toNat_of_nonneg he
    have e : x.val = ((x.mant * 2 ^ x.exp.toNat : ℕ) : ℚ) := by
      unfold Binary64.val
      rw [← hj, zpow_natCast]
      push_cast
      rw [hj]
    rw [e] at h1 h2
    have a1 : (K : ℚ) < ((x.mant * 2 ^ x.exp.toNat : ℕ) : ℚ) + 1 := by linarith
    have a2 : ((x.mant * 2 ^ x.exp.toNat : ℕ) : ℚ) < (K : ℚ) + 1 := by linarith
    have b1 : K < x.mant * 2 ^ x.exp.toNat + 1 := by exact_mod_cast a1
    have b2 : x.mant * 2 ^ x.exp.toNat < K + 1 := by exact_mod_cast a2
    omega
  · simp only [he, if_false]
    have hj : ((-x.exp).toNat : ℤ) = -x.exp := Int.toNat_of_nonneg (by omega)
    have e : x.val = (x.mant : ℚ) / 2 ^ (-x.exp).toNat := by
      unfold Binary64.val
      have e2 : (2 : ℚ) ^ x.exp = ((2 : ℚ) ^ (-x.exp).toNat)⁻¹ := by
        rw [← zpow_natCast, hj, zpow_neg, inv_inv]
      rw [e2, div_eq_mul_inv]
    rw [e] at h1 h2
    have hp : (0 : ℚ) < 2 ^ (-x.exp).toNat := by positivity
    apply Nat.div_eq_of_lt_le
    · have a1 : (K : ℚ) * 2 ^ ((-x.exp).toNat + 1)
          ≤ 2 * x.mant + 2 ^ (-x.exp).toNat := by
        rw [pow_succ]
        have := mul_le_mul_of_nonneg_right h1 (le_of_lt hp)
        rw [add_mul, div_mul_cancel₀ _ (ne_of_gt hp)] at this
        linarith
      exact_mod_cast a1
    · have a2 : (2 : ℚ) * x.mant + 2 ^ (-x.exp).toNat
          < ((K : ℚ) + 1) * 2 ^ ((-x.exp).toNat + 1) := by
        rw [pow_succ]
        have := mul_lt_mul_of_pos_right h2 hp
        rw [add_mul, div_mul_cancel₀ _ (ne_of_gt hp)] at this
        linarith
      exact_mod_cast a2

/-- The computed product `(c / t) * 100` is within `2 ^ (-45)` of the exact value. -/
theorem pct_error (c t : Nat) (hc : 1 ≤ c) (hct : c ≤ t) :
    |(jsMul (jsDiv c t) 100).val - (c : ℚ) / t * 100| < 1 / 2 ^ 45 := by
  have ht : 1 ≤ t := le_trans hc hct
  have hy := abs_le.mp (fl_spec c t hc ht)
  have hpos := fl_val_pos c t hc ht
  have hz := abs_le.mp (jsMul_spec (fl c t) 100 hpos (by norm_num))
  have hcq : (0 : ℚ) < c := by exact_mod_cast hc
  have htq : (0 : ℚ) < t := by exact_mod_cast ht
  have hq0 : (0 : ℚ) < (c : ℚ) / t := by positivity
  have hq1 : (c : ℚ) / t ≤ 1 := by
    rw [div_le_one htq]; exact_mod_cast hct
  unfold jsDiv
  rw [abs_lt]
  norm_num at hy hz ⊢
  constructor <;> linarith

/-- The exact value plus one half lies between the closed form and its
successor, with a margin of `1 / (2 t)` above, and below when it is not an
integer. -/
theorem roundHalfUpPct_bounds (c i : Nat) (ht : 1 ≤ c + i) :
    (roundHalfUpPct c i : ℚ) ≤ (c : ℚ) / (c + i : ℕ) * 100 + 1 / 2 ∧
    (c : ℚ) / (c + i : ℕ) * 100 + 1 / 2 + 1 / (2 * (c + i : ℕ))
      ≤ (roundHalfUpPct c i : ℚ) + 1 ∧
    ((200 * c + (c + i)) % (2 * (c + i)) ≠ 0 →
      (roundHalfUpPct c i : ℚ) + 1 / (2 * (c + i : ℕ))
        ≤ (c : ℚ) / (c + i : ℕ) * 100 + 1 / 2) := by
  have ht0 : c + i ≠ 0 := by omega
  have htq : (0 : ℚ) < ((c + i : ℕ) : ℚ) := by exact_mod_cast ht
  have hD : 0 < 2 * (c + i) := by omega
  have hx : (c : ℚ) / (c + i : ℕ) * 100 + 1 / 2
      = ((200 * c + (c + i) : ℕ) : ℚ) / (2 * (c + i : ℕ)) := by
    have hne : (c : ℚ) + i ≠ 0 := by
      have := htq
      push_cast at this
      exact ne_of_gt this
    push_cast
    field_simp
    ring
  have hK : roundHalfUpPct c i = (200 * c + (c + i)) / (2 * (c + i)) := by
    simp [roundHalfUpPct, ht0]
  have h1 : roundHalfUpPct c i * (2 * (c + i)) ≤ 200 * c + (c + i) := by
    rw [hK]; exact Nat.div_mul_le_self _ _
  have h2 : 200 * c + (c + i) + 1 ≤ (roundHalfUpPct c i + 1) * (2 * (c + i)) := by
    rw [hK]
    have := Nat.div_add_mod (200 * c + (c + i)) (2 * (c + i))
    have hlt : (200 * c + (c + i)) % (2 * (c + i)) < 2 * (c + i) := Nat.mod_lt _ hD
    nlinarith
  have h3 : (200 * c + (c + i)) % (2 * (c + i)) ≠ 0 →
      roundHalfUpPct c i * (2 * (c + i)) + 1 ≤ 200 * c + (c + i) := by
    intro hr
    rw [hK]
    have := Nat.div_add_mod (200 * c + (c + i)) (2 * (c + i))
    have hpos : 0 < (200 * c + (c + i)) % (2 * (c + i)) := Nat.pos_of_ne_zero hr
    nlinarith
  have h1q : (roundHalfUpPct c i : ℚ) * (2 * (c + i : ℕ)) ≤ ((200 * c + (c + i) : ℕ) : ℚ) := by
    exact_mod_cast h1
  have h2q : ((200 * c + (c + i) : ℕ) : ℚ) + 1
      ≤ ((roundHalfUpPct c i : ℚ) + 1) * (2 * (c + i : ℕ)) := by
    exact_mod_cast h2
  have hDq : (0 : ℚ) < 2 * ((c + i : ℕ) : ℚ) := by positivity
  rw [hx]
  refine ⟨?_, ?_, ?_⟩
  · rw [le_div_iff₀ hDq]; exact h1q
  · rw [← add_div, div_le_iff₀ hDq]; exact h2q
  · intro hr
    have h3q : (roundHalfUpPct c i : ℚ) * (2 * (c + i : ℕ)) + 1
        ≤ ((200 * c + (c + i) : ℕ) : ℚ) := by
      exact_mod_cast h3 hr
    rw [le_div_iff₀ hDq, add_mul, div_mul_cancel₀ _ (ne_of_gt hDq)]
    exact h3q

/-- With no correct answer the percentage is 0. -/
theorem pct_zero_correct (i : Nat) : Summary.pct 0 i = 0 := by
  simp [Summary.pct, jsDiv, fl, jsMul, mathRound]

/-- The displayed percentage is the closed form or one less, and is the
closed form away from exact halves. -/
theorem pct_vs_exact (c i : Nat) (ht : c + i ≤ 2 ^ 44) :
    (Summary.pct c i = roundHalfUpPct c i ∨ Summary.pct c i + 1 = roundHalfUpPct c i) ∧
    ((200 * c + (c + i)) % (2 * (c + i)) ≠ 0 → Summary.pct c i = roundHalfUpPct c i) := by
  rcases Nat.eq_zero_or_pos c with hc | hc
  · subst hc
    have : roundHalfUpPct 0 i = 0 := by
      unfold roundHalfUpPct
      split_ifs with h
      · rfl
      · apply Nat.div_eq_of_lt; omega
    rw [pct_zero_correct, this]
    exact ⟨Or.inl rfl, fun _ => rfl⟩
  · have ht1 : 1 ≤ c + i := by omega
    have ht0 : c + i ≠ 0 := by omega
    obtain ⟨hb1, hb2, hb3⟩ := roundHalfUpPct_bounds c i ht1
    have herr := abs_lt.mp (pct_error c (c + i) hc (by omega))
    have hpct : Summary.pct c i = mathRound (jsMul (jsDiv c (c + i)) 100) := by
      simp [Summary.pct, ht0]
    have htq : (0 : ℚ) < ((c + i : ℕ) : ℚ) := by exact_mod_cast ht1
    have htle : ((c + i : ℕ) : ℚ) ≤ 2 ^ 44 := by exact_mod_cast ht
    have hdelta : (1 : ℚ) / 2 ^ 45 ≤ 1 / (2 * ((c + i : ℕ) : ℚ)) := by
      rw [div_le_div_iff₀ (by positivity) (by positivity)]
      have : (2 : ℚ) ^ 45 = 2 * 2 ^ 44 := by norm_num
      rw [this]
      linarith
    have hcq : (0 : ℚ) < c := by exact_mod_cast hc
    have hx0 : (0 : ℚ) < (c : ℚ) / (c + i : ℕ) * 100 := by positivity
    have hup : (jsMul (jsDiv c (c + i)) 100).val + 1 / 2 < (roundHalfUpPct c i : ℚ) + 1 := by
      linarith
    have hd1 : (1 : ℚ) / 2 ^ 45 ≤ 1 / 2 := by norm_num
    rw [hpct]
    constructor
    · by_cases hK : (roundHalfUpPct c i : ℚ) ≤ (jsMul (jsDiv c (c + i)) 100).val + 1 / 2
      · exact Or.inl (mathRound_spec _ _ hK hup)
      · right
        have hKpos : 1 ≤ roundHalfUpPct c i := by
          rcases Nat.eq_zero_or_pos (roundHalfUpPct c i) with h0 | h0
          · exfalso
            apply hK
            rw [h0]
            push_cast
            linarith
          · exact h0
        have hcast : ((roundHalfUpPct c i - 1 : ℕ) : ℚ) = (roundHalfUpPct c i : ℚ) - 1 := by
          push_cast [Nat.cast_sub hKpos]
          ring
        have := mathRound_spec (jsMul (jsDiv c (c + i)) 100) (roundHalfUpPct c i - 1)
          (by rw [hcast]; linarith) (by rw [hcast]; linarith)
        omega
    · intro hr
      have := hb3 hr
      exact mathRound_spec _ _ (by linarith) hup

/-- The percentage in the words of the specification has the closed form `roundHalfUpPct`. -/
theorem summarize_eq (c i : Nat) : summarize c i = (roundHalfUpPct c i : ℤ) := by
  rcases Nat.eq_zero_or_pos (c + i) with h | h
  · simp [summarize, roundHalfUpPct, h]
  · have ht0 : c + i ≠ 0 := by omega
    obtain ⟨hb1, hb2, -⟩ := roundHalfUpPct_bounds c i h
    have htq : (0 : ℚ) < ((c + i : ℕ) : ℚ) := by exact_mod_cast h
    have hpos : (0 : ℚ) < 1 / (2 * ((c + i : ℕ) : ℚ)) := by positivity
    simp only [summarize, ht0, if_false]
    rw [Int.floor_eq_iff]
    push_cast
    push_cast at hb1 hb2 hpos
    constructor <;> linarith

/-- Away from exact halves the remainder in the closed form is not zero. -/
theorem not_exactHalf_mod (c i : Nat) (ht : 1 ≤ c + i) (h : ¬ ExactHalf c i) :
    (200 * c + (c + i)) % (2 * (c + i)) ≠ 0 := by
  intro hmod
  apply h
  obtain ⟨m, hm⟩ := Nat.dvd_of_mod_eq_zero hmod
  have htq : (0 : ℚ) < ((c + i : ℕ) : ℚ) := by exact_mod_cast ht
  have hmq : ((200 * c + (c + i) : ℕ) : ℚ) = ((2 * (c + i) * m : ℕ) : ℚ) := by rw [hm]
  refine ⟨(m : ℤ) - 1, ?_⟩
  push_cast at hmq htq ⊢
  have hne : (c : ℚ) + i ≠ 0 := ne_of_gt htq
  field_simp
  linarith

/-! ### The claims -/

/-- C1: in an in-progress session an incorrect answer appends the identifier
at the current position once at the end of the queue, and a correct answer
leaves the queue as it was. -/
theorem handleResult_queue (s : App) (h : s.idx < s.queue.length) :
    (handleResult s false).queue = s.queue ++ [s.queue.get ⟨s.idx, h⟩] ∧
    (handleResult s true).queue = s.queue := by
  exact ⟨handleResult_queue_aux s h, rfl⟩

/-- Witness of C1 on the seeded bank: a miss on the only item duplicates it. -/
theorem handleResult_queue_witness :
    (App.init emptyStore bank).idx < (App.init emptyStore bank).queue.length ∧
    (handleResult (App.init emptyStore bank) false).queue
      = [some "art24-double-dribble", some "art24-double-dribble"] ∧
    (handleResult (App.init emptyStore bank) true).queue = [some "art24-double-dribble"] :=
  ⟨by decide, handleResult_queue (App.init emptyStore bank) (by decide)⟩

/-- C2, as stated, fails: from queue `[A]` at position 0 an incorrect answer
gives queue `[A, A]` and position 1, and `finished` is then false. -/
theorem last_miss_finished_counterexample :
    sessionA.queue = [some "A"] ∧ sessionA.idx = 0 ∧
    (handleResult sessionA false).queue = [some "A", some "A"] ∧
    (handleResult sessionA false).idx = 1 ∧
    ¬ (finished (handleResult sessionA false) = true) := by
  decide

/-- C2, amended: a miss on the last entry of a non-empty queue appends the
current identifier and moves the position to the old queue length, and the
session is then not finished, because the queue has grown by one. -/
theorem last_miss_not_finished (s : App) (hne : s.queue ≠ [])
    (hpos : s.idx = s.queue.length - 1) :
    (∃ id, s.queue[s.idx]? = some id ∧ (handleResult s false).queue = s.queue ++ [id]) ∧
    (handleResult s false).idx = s.queue.length ∧
    finished (handleResult s false) = false := by
  have hlen : 0 < s.queue.length := List.length_pos.mpr hne
  have hlt : s.idx < s.queue.length := by omega
  refine ⟨⟨s.queue.get ⟨s.idx, hlt⟩, ?_, (handleResult_queue_aux s hlt)⟩, ?_, ?_⟩
  · simp [List.getElem?_eq_getElem hlt]
  · simp only [handleResult, handleResultFrom]; omega
  · simp only [finished, handleResult, handleResultFrom, decide_eq_false_iff_not]
    simp

/-- Witness of the amended C2 on the queue `[A]`. -/
theorem last_miss_not_finished_witness :
    sessionA.queue ≠ [] ∧ sessionA.idx = sessionA.queue.length - 1 ∧
    (handleResult sessionA false).idx = sessionA.queue.length ∧
    finished (handleResult sessionA false) = false :=
  ⟨by decide, by decide,
    (last_miss_not_finished sessionA (by decide) (by decide)).2⟩

/-- C3: in every reachable state the position is at most the queue length,
and each call of `handleResult` leaves the position and the queue length at
least as large as before, the old queue being a prefix of the new one. -/
theorem session_invariant (b : List Question) (s : App) (h : Reachable b s) :
    s.idx ≤ s.queue.length ∧
    ∀ ok : Bool,
      s.idx ≤ (handleResult s ok).idx ∧
      s.queue.length ≤ (handleResult s ok).queue.length ∧
      s.queue <+: (handleResult s ok).queue := by
  have hle := reachable_idx_le b s h
  refine ⟨hle, fun ok => ⟨?_, ?_, ?_⟩⟩
  · simp only [handleResult, handleResultFrom]; omega
  · cases ok <;> simp [handleResult, handleResultFrom]
  · cases ok <;> simp [handleResult, handleResultFrom]

/-- Witness of C3 after one miss on the seeded bank. -/
theorem session_invariant_witness :
    Reachable bank (handleResult (App.init emptyStore bank) false) ∧
    (handleResult (App.init emptyStore bank) false).idx
      ≤ (handleResult (App.init emptyStore bank) false).queue.length :=
  ⟨Reachable.result _ false (Reachable.init emptyStore),
    (session_invariant bank _ (Reachable.result _ false (Reachable.init emptyStore))).1⟩

/-- C4, as stated, fails: with the stored experience total `2 ^ 54` an
incorrect answer leaves the total at `2 ^ 54`, not `2 ^ 54 + 2`, and a correct
answer gives `2 ^ 54 + 8`, not `2 ^ 54 + 10`, since the sum is rounded to
binary64. -/
theorem handleResult_xp_counterexample :
    (App.init storeXpBig bank).xp.toNat? = some 18014398509481984 ∧
    (handleResult (App.init storeXpBig bank) false).xp.toNat? = some 18014398509481984 ∧
    (handleResult (App.init storeXpBig bank) true).xp.toNat? = some 18014398509481992 := by
  decide

/-- C4, amended: when the experience total is the integer `x` and the new
total stays below `2 ^ 53`, `handleResult` sets the total to `x + 10` for a
correct answer and to `x + 2` for an incorrect one, writes the decimal string
of the new total under the experience key, and reading that key back (also as
the initial value after a reload) gives the new total; from 0 this is 10 and
2. -/
theorem handleResult_xp (s : App) (x : Nat) (ok : Bool) (dflt : JSNumber)
    (b : List Question) (hx : s.xp.toNat? = some x)
    (hb : x + (if ok then 10 else 2) < 2 ^ 53) :
    (handleResult s ok).xp = JSNumber.ofNat (x + (if ok then 10 else 2)) ∧
    getItem (handleResult s ok).localStorage LS.XP
      = some (numToString (x + (if ok then 10 else 2))) ∧
    readNum (handleResult s ok).localStorage LS.XP dflt = (handleResult s ok).xp ∧
    (App.init (handleResult s ok).localStorage b).xp = (handleResult s ok).xp ∧
    (handleResult { s with xp := JSNumber.ofNat 0 } true).xp = JSNumber.ofNat 10 ∧
    (handleResult { s with xp := JSNumber.ofNat 0 } false).xp = JSNumber.ofNat 2 := by
  have hr : 1 ≤ (if ok then 10 else 2) := by cases ok <;> simp
  have hxp : (handleResult s ok).xp = JSNumber.ofNat (x + (if ok then 10 else 2)) := by
    simp only [handleResult, handleResultFrom]
    exact add_ofNat s.xp x _ hx hr (le_of_lt hb)
  have hw : getItem (handleResult s ok).localStorage LS.XP
      = some (jsString (handleResult s ok).xp) := by
    simp only [handleResult, handleResultFrom]
    exact getItem_setItem_same _ _ _
  obtain ⟨m, j, hof, -, hrep⟩ :=
    ofNat_finite (x + (if ok then 10 else 2)) (by omega) (le_of_lt hb)
  have hread : ∀ d : JSNumber,
      readNum (handleResult s ok).localStorage LS.XP d = (handleResult s ok).xp := by
    intro d
    rw [hxp, hof] at hw ⊢
    exact readNum_jsString _ _ d false m j hrep (fun _ => rfl) hw
  have h10 : (JSNumber.ofNat 0).add (JSNumber.ofNat 10) = JSNumber.ofNat 10 := by decide
  have h2 : (JSNumber.ofNat 0).add (JSNumber.ofNat 2) = JSNumber.ofNat 2 := by decide
  refine ⟨hxp, ?_, hread dflt, hread _, h10, h2⟩
  rw [hw, hxp, jsString_ofNat _ hb]

/-- Witness of the amended C4: from the stored total 40 a correct answer
gives 50, stored as the string `50`. -/
theorem handleResult_xp_witness :
    (App.init (setItem emptyStore LS.XP "40") bank).xp.toNat? = some 40 ∧
    (handleResult (App.init (setItem emptyStore LS.XP "40") bank) true).xp
      = JSNumber.ofNat (40 + 10) ∧
    getItem (handleResult (App.init (setItem emptyStore LS.XP "40") bank) true).localStorage
      LS.XP = some (numToString (40 + 10)) :=
  ⟨by decide,
    (handleResult_xp (App.init (setItem emptyStore LS.XP "40") bank) 40 true
      (JSNumber.ofNat 0) bank (by decide) (by decide)).1,
    (handleResult_xp (App.init (setItem emptyStore LS.XP "40") bank) 40 true
      (JSNumber.ofNat 0) bank (by decide) (by decide)).2.1⟩

/-- C5, the code at the failing input: on the seeded bank, selecting choice
`a` and then choice `b` on the same card calls `handleResult` twice.  After the
first selection the card is still on screen with `picked` set; the second
selection leaves `picked` as it was and yet changes the correct count, the
experience points and the position. -/
theorem mcq_second_selection_changes_outcome :
    (∃ q ∈ bank, choiceA ∈ q.choices ∧ choiceB ∈ q.choices) ∧
    afterFirstPick.1.picked = some "a" ∧
    afterFirstPick.2.screen = Screen.mcqCard ∧
    (current bank afterFirstPick.2).map Question.id = some "art24-double-dribble" ∧
    afterFirstPick.2.correctCount = 0 ∧ afterFirstPick.2.incorrectCount = 1 ∧
    afterFirstPick.2.xp = JSNumber.ofNat 2 ∧ afterFirstPick.2.idx = 1 ∧
    afterSecondPick.1.picked = some "a" ∧
    afterSecondPick.2.correctCount = 1 ∧ afterSecondPick.2.incorrectCount = 1 ∧
    afterSecondPick.2.xp = JSNumber.ofNat 12 ∧ afterSecondPick.2.idx = 2 := by
  decide

/-- C6, the code at the failing input: with the rubric keyword `FIBA` the
response `FIBA` is marked incorrect, although the keyword occurs in the
response, verbatim and under case-insensitive comparison; the lower-case
keywords of the seeded bank do match a response in mixed case. -/
theorem recall_uppercase_keyword_rejected :
    RecallCard.ok questionCaps "FIBA" = false ∧
    includes "FIBA" "FIBA" = true ∧
    includes (toLowerCase "FIBA") (toLowerCase "FIBA") = true ∧
    (∀ q ∈ bank, RecallCard.ok q "NO, unless Another Player touched it IN BETWEEN" = true) := by
  decide

/-- C7, as stated, fails.  With the stored streak `2 ^ 53` and yesterday as
the last active day the call returns `2 ^ 53`, not `2 ^ 53 + 1`.  And with
yesterday stored as the last active day but no streak entry, a start on that
day returns 1 and the start on the next day returns 1 again. -/
theorem updateStreak_cases_counterexample :
    getItem storeStreakBig LS.LAST_DAY = some (dayStr feb29) ∧
    (readNum storeStreakBig LS.STREAK (JSNumber.ofNat 0)).toNat? = some 9007199254740992 ∧
    (updateStreakOnSessionStart storeStreakBig march1 feb29).2.toNat?
      = some 9007199254740992 ∧
    (updateStreakOnSessionStart storeNoStreak feb29 feb28).2 = JSNumber.ofNat 1 ∧
    (updateStreakOnSessionStart
        (updateStreakOnSessionStart storeNoStreak feb29 feb28).1 march1 feb29).2
      = JSNumber.ofNat 1 := by
  decide

/-- C7, amended.  `now` is the day of the call and `y` the day its `Date`
object shows after `setDate(getDate() - 1)`.  The call returns 1 when no last
active day is stored; when the last active day is `y` it returns the binary64
sum of the stored streak (read with default 0) and 1, which is `n + 1` for a
stored integer `n` below `2 ^ 53`; it returns 1 when the last active day is
any other day than today.  In each of these cases the store then holds the
text of the returned value as streak, which reads back as that value, and
today as last active day.  A start on the day after a start returns that
start's value plus 1 (one more for an integer below `2 ^ 53`), provided that a
first start that was a same-day repeat read a finite stored streak; and a
stored valid day that is neither today nor `y` resets the streak to 1. -/
theorem updateStreak_cases (ls : Store) (now y : JSDate) :
    (getItem ls LS.LAST_DAY = none →
      (updateStreakOnSessionStart ls now y).2 = JSNumber.ofNat 1) ∧
    (getItem ls LS.LAST_DAY = some (dayStr y) → dayStr y ≠ todayStr now →
      (updateStreakOnSessionStart ls now y).2
        = (readNum ls LS.STREAK (JSNumber.ofNat 0)).add (JSNumber.ofNat 1) ∧
      ∀ n : Nat, (readNum ls LS.STREAK (JSNumber.ofNat 0)).toNat? = some n → n < 2 ^ 53 →
        (updateStreakOnSessionStart ls now y).2 = JSNumber.ofNat (n + 1)) ∧
    (∀ l : String, getItem ls LS.LAST_DAY = some l → l ≠ todayStr now → l ≠ dayStr y →
      (updateStreakOnSessionStart ls now y).2 = JSNumber.ofNat 1) ∧
    (getItem ls LS.LAST_DAY ≠ some (todayStr now) →
      getItem (updateStreakOnSessionStart ls now y).1 LS.STREAK
        = some (jsString (updateStreakOnSessionStart ls now y).2) ∧
      (∀ dflt : JSNumber, readNum (updateStreakOnSessionStart ls now y).1 LS.STREAK dflt
        = (updateStreakOnSessionStart ls now y).2) ∧
      getItem (updateStreakOnSessionStart ls now y).1 LS.LAST_DAY = some (todayStr now)) ∧
    (∀ now2 y2 : JSDate, dayStr y2 = todayStr now → todayStr now2 ≠ todayStr now →
      (getItem ls LS.LAST_DAY = some (todayStr now) →
        readNum ls LS.STREAK (JSNumber.ofNat 0) = readNum ls LS.STREAK (JSNumber.ofNat 1)) →
      (updateStreakOnSessionStart (updateStreakOnSessionStart ls now y).1 now2 y2).2
        = (updateStreakOnSessionStart ls now y).2.add (JSNumber.ofNat 1) ∧
      ∀ n : Nat, (updateStreakOnSessionStart ls now y).2.toNat? = some n → n < 2 ^ 53 →
        (updateStreakOnSessionStart (updateStreakOnSessionStart ls now y).1 now2 y2).2
          = JSNumber.ofNat (n + 1)) ∧
    (∀ d : JSDate, d.Valid → now.Valid → y.Valid → d ≠ now → d ≠ y →
      getItem ls LS.LAST_DAY = some (dayStr d) →
      (updateStreakOnSessionStart ls now y).2 = JSNumber.ofNat 1) := by
  refine ⟨?_, ?_, ?_, ?_, ?_, ?_⟩
  · intro h
    rw [updateStreak_noLast ls now y h]
  · intro h hne
    rw [updateStreak_yesterday ls now y hne h]
    refine ⟨rfl, fun n hn hlt => ?_⟩
    exact add_ofNat _ n 1 hn le_rfl (by omega)
  · intro l h h1 h2
    rw [updateStreak_other ls now y l h h1 h2]
  · intro h
    exact updateStreak_store ls now y h
  · intro now2 y2 hy2 hne2 hdef
    have hsum : (updateStreakOnSessionStart (updateStreakOnSessionStart ls now y).1 now2 y2).2
        = (updateStreakOnSessionStart ls now y).2.add (JSNumber.ofNat 1) := by
      by_cases hl : getItem ls LS.LAST_DAY = some (todayStr now)
      · rw [updateStreak_sameDay ls now y hl]
        have hl2 : getItem ls LS.LAST_DAY = some (dayStr y2) := by rw [hy2]; exact hl
        rw [updateStreak_yesterday ls now2 y2 (by rw [hy2]; exact fun e => hne2 e.symm) hl2,
          hdef hl]
      · obtain ⟨-, h2, h3⟩ := updateStreak_store ls now y hl
        have hl2 : getItem (updateStreakOnSessionStart ls now y).1 LS.LAST_DAY
            = some (dayStr y2) := by rw [hy2]; exact h3
        rw [updateStreak_yesterday _ now2 y2 (by rw [hy2]; exact fun e => hne2 e.symm) hl2]
        simp only [h2]
    refine ⟨hsum, fun n hn hlt => ?_⟩
    rw [hsum]
    exact add_ofNat _ n 1 hn le_rfl (by omega)
  · intro d hd hnow hy h1 h2 h
    have e1 : dayStr d ≠ todayStr now := fun e => h1 (dayStr_injective hd hnow e)
    have e2 : dayStr d ≠ dayStr y := fun e => h2 (dayStr_injective hd hy e)
    rw [updateStreak_other ls now y _ h e1 e2]

/-- Witness of the amended C7 on 1 March 2024: after 29 February with streak
3 the streak is 4, and with the streak stored as a 7 between blanks it is 8;
with no stored day, or after 27 February, it is 1; and a first start on
29 February followed by a start on 1 March gives 2. -/
theorem updateStreak_cases_witness :
    (updateStreakOnSessionStart emptyStore march1 feb29).2 = JSNumber.ofNat 1 ∧
    (updateStreakOnSessionStart storeFeb29 march1 feb29).2 = JSNumber.ofNat (3 + 1) ∧
    (updateStreakOnSessionStart storeStreakBlanks march1 feb29).2 = JSNumber.ofNat (7 + 1) ∧
    (updateStreakOnSessionStart storeFeb27 march1 feb29).2 = JSNumber.ofNat 1 ∧
    (feb27.Valid ∧ march1.Valid ∧ feb29.Valid ∧
      (updateStreakOnSessionStart storeFeb27 march1 feb29).2 = JSNumber.ofNat 1) ∧
    getItem (updateStreakOnSessionStart storeFeb29 march1 feb29).1 LS.LAST_DAY
      = some (todayStr march1) ∧
    (updateStreakOnSessionStart
        (updateStreakOnSessionStart emptyStore feb29 feb28).1 march1 feb29).2
      = JSNumber.ofNat (1 + 1) :=
  ⟨(updateStreak_cases emptyStore march1 feb29).1 rfl,
    ((updateStreak_cases storeFeb29 march1 feb29).2.1 (by decide) (by decide)).2 3
      (by decide) (by decide),
    ((updateStreak_cases storeStreakBlanks march1 feb29).2.1 (by decide) (by decide)).2 7
      (by decide) (by decide),
    (updateStreak_cases storeFeb27 march1 feb29).2.2.1 "2024-02-27" (by decide)
      (by decide) (by decide),
    ⟨by decide, by decide, by decide,
      (updateStreak_cases storeFeb27 march1 feb29).2.2.2.2.2 feb27 (by decide) (by decide)
        (by decide) (by decide) (by decide) (by decide)⟩,
    ((updateStreak_cases storeFeb29 march1 feb29).2.2.2.1 (by decide)).2.2,
    ((updateStreak_cases emptyStore feb29 feb28).2.2.2.2.1 march1 feb29 (by decide)
      (by decide) (fun h => Option.noConfusion h)).2 1 (by decide) (by decide)⟩

/-- C8: when the stored last active day is today the call writes nothing and
returns the stored streak; and for every store and day a second call on the
same day returns what the first call returned and leaves the store as the
first call left it. -/
theorem updateStreak_sameDay_idempotent (ls : Store) (now y y2 : JSDate) :
    (getItem ls LS.LAST_DAY = some (todayStr now) →
      updateStreakOnSessionStart ls now y = (ls, readNum ls LS.STREAK (JSNumber.ofNat 1))) ∧
    updateStreakOnSessionStart (updateStreakOnSessionStart ls now y).1 now y2
      = updateStreakOnSessionStart ls now y := by
  refine ⟨updateStreak_sameDay ls now y, ?_⟩
  by_cases h : getItem ls LS.LAST_DAY = some (todayStr now)
  · rw [updateStreak_sameDay ls now y h]
    exact updateStreak_sameDay ls now y2 h
  · obtain ⟨-, h1, h2⟩ := updateStreak_store ls now y h
    rw [updateStreak_sameDay _ now y2 h2, h1]

/-- Witness of C8 on 1 March 2024 with that day stored and streak 5, and with
a stored streak written with blanks around it on the day after. -/
theorem updateStreak_sameDay_idempotent_witness :
    getItem storeMarch1 LS.LAST_DAY = some (todayStr march1) ∧
    updateStreakOnSessionStart storeMarch1 march1 feb29
      = (storeMarch1, readNum storeMarch1 LS.STREAK (JSNumber.ofNat 1)) ∧
    readNum storeMarch1 LS.STREAK (JSNumber.ofNat 1) = JSNumber.ofNat 5 ∧
    (updateStreakOnSessionStart storeStreakBlanks march1 feb29).2 = JSNumber.ofNat 8 ∧
    updateStreakOnSessionStart
        (updateStreakOnSessionStart storeStreakBlanks march1 feb29).1 march1 feb29
      = updateStreakOnSessionStart storeStreakBlanks march1 feb29 :=
  ⟨by decide, (updateStreak_sameDay_idempotent storeMarch1 march1 feb29 feb29).1 (by decide),
    by decide, by decide,
    (updateStreak_sameDay_idempotent storeStreakBlanks march1 feb29 feb29).2⟩

/-- C9, as stated, fails: with 23 correct and 17 incorrect answers the exact
percentage is 57.5, which rounds up to 58, while the binary64 product
`(23 / 40) * 100` falls just below 57.5 and `Summary` shows 57. -/
theorem summary_pct_counterexample :
    Summary.pct 23 17 = 57 ∧ summarize 23 17 = 58 ∧
    (Summary.pct 23 17 : ℤ) ≠ summarize 23 17 := by
  have h1 : Summary.pct 23 17 = 57 := by decide
  have h2 : summarize 23 17 = 58 := by
    rw [summarize_eq]; decide
  refine ⟨h1, h2, ?_⟩
  rw [h1, h2]; decide

/-- C9, amended: for totals up to `2 ^ 44` the percentage of `Summary` is 0
when no answer was given; it is the integer nearest to the exact rational
`100 * correct / total` (halves up) whenever that rational is not exactly
halfway between two integers, and in every case it is that integer or the one
below it; `summarize(0,0)` is 0 and `summarize(3,1)` is 75. -/
theorem summary_pct (c i : Nat) (ht : c + i ≤ 2 ^ 44) :
    (c + i = 0 → Summary.pct c i = 0) ∧
    ((Summary.pct c i : ℤ) = summarize c i ∨ (Summary.pct c i : ℤ) + 1 = summarize c i) ∧
    (¬ ExactHalf c i → (Summary.pct c i : ℤ) = summarize c i) ∧
    Summary.pct 0 0 = 0 ∧ Summary.pct 3 1 = 75 := by
  obtain ⟨h1, h2⟩ := pct_vs_exact c i ht
  refine ⟨?_, ?_, ?_, by decide, by decide⟩
  · intro h0
    simp [Summary.pct, h0]
  · rw [summarize_eq]
    rcases h1 with h | h
    · left; exact_mod_cast h
    · right; exact_mod_cast h
  · intro hne
    rcases Nat.eq_zero_or_pos (c + i) with h | h
    · simp [Summary.pct, summarize, h]
    · rw [summarize_eq]
      exact_mod_cast h2 (not_exactHalf_mod c i h hne)

/-- Witness of the amended C9 at 3 correct and 1 incorrect answers. -/
theorem summary_pct_witness :
    3 + 1 ≤ 2 ^ 44 ∧ ¬ ExactHalf 3 1 ∧ (Summary.pct 3 1 : ℤ) = summarize 3 1 :=
  have hne : ¬ ExactHalf 3 1 := by
    rintro ⟨k, hk⟩
    have h2 : ((150 : ℤ) : ℚ) = ((2 * k + 1 : ℤ) : ℚ) := by
      push_cast
      norm_num at hk
      linarith
    have h3 : (150 : ℤ) = 2 * k + 1 := by exact_mod_cast h2
    omega
  ⟨by decide, hne, (summary_pct 3 1 (by decide)).2.2.1 hne⟩

/-- C10: while `handleResult` is only called in progress, the position is the
number of answers and the queue length is the catalog size plus the number of
misses; so the session is finished exactly when the correct count equals the
catalog size, a miss never finishes the session, and the clamp of the position
update never takes effect. -/
theorem inProgress_invariant (b : List Question) (s : App)
    (h : ReachableInProgress b s) :
    s.idx = s.correctCount + s.incorrectCount ∧
    s.queue.length = b.length + s.incorrectCount ∧
    (finished s = true ↔ s.correctCount = b.length) ∧
    (s.idx < s.queue.length →
      finished (handleResult s false) = false ∧
      ∀ ok : Bool, (handleResult s ok).idx = s.idx + 1) := by
  obtain ⟨h1, h2⟩ := inProgress_counts b s h
  have hle : s.idx ≤ s.queue.length := reachableInProgress_idx_le b s h
  refine ⟨h1, h2, ?_, ?_⟩
  · simp only [finished, decide_eq_true_eq]; omega
  · intro hlt
    refine ⟨?_, fun ok => ?_⟩
    · simp only [finished, handleResult, handleResultFrom, decide_eq_false_iff_not]
      simp
    · simp only [handleResult, handleResultFrom]; omega

/-- Witness of C10 at the start of a session over the seeded bank. -/
theorem inProgress_invariant_witness :
    ReachableInProgress bank (App.init emptyStore bank) ∧
    (App.init emptyStore bank).idx < (App.init emptyStore bank).queue.length ∧
    finished (handleResult (App.init emptyStore bank) false) = false ∧
    (handleResult (App.init emptyStore bank) true).idx = 1 :=
  ⟨ReachableInProgress.init emptyStore, by decide,
    ((inProgress_invariant bank _ (ReachableInProgress.init emptyStore)).2.2.2
      (by decide)).1,
    ((inProgress_invariant bank _ (ReachableInProgress.init emptyStore)).2.2.2
      (by decide)).2 true⟩

end FibaDemo
